import Mathlib

/-!
# Shared-stack coroutine scheduler (`coroutine.c`)

A shallow embedding of the scheduler of `src/coroutine.c` and a verification
of its slot allocator, its status discipline and its stack save/restore.

Modelling conventions.

* C `int` and `ptrdiff_t` values are `Int`s.  `coroutine_new` computes with
  them unbounded; `coroutine_new_int` is the same function with every `int`
  operation checked against the 32-bit range, an overflow (undefined in C; the
  run faults) being `none`.  Whatever `coroutine_new_int` returns,
  `coroutine_new` returns too (`coroutine_new_int_refines`).
* `S->co` is memory indexed by an `Int` offset; a `NULL` entry is `none`,
  a non-`NULL` entry holds the coroutine record it points to (every record
  is pointed to by exactly one slot).
* The shared stack `S->stack` and the private stacks are memories indexed by
  an `Int` byte offset from their base; a byte is a `Nat`.
* A failed `assert` (or a dereference of a `NULL` coroutine) is `none`.
* The shared stack given to `coroutine_yield` is its content once the frames of
  `coroutine_yield` and `_save_stack` are in place; these frames are stores of
  the running code (the event `write`), of which the model itself performs
  only the initialisation of `dummy`.  In the program `dummy`, a local of the
  callee, lies below the local `C` of `coroutine_yield`
  (`STACK_SIZE - n < addrC`); statements that depend on it assume it.
* The stores that `makecontext` makes at the top of the shared stack when a
  READY coroutine is first resumed are likewise stores of the running code.
* `swapcontext` transfers control; the state transformers below describe the
  scheduler state at the moment of the switch.  The machine contexts
  (`ucontext_t`) and the back pointer `sch` carry no scheduler data and are
  not represented.
-/

namespace Coro

/-- Modelled from the spec: the status enumeration of the missing header
`coroutine.h` ("one of READY, RUNNING, SUSPEND, DEAD"). -/
inductive Status where
  | COROUTINE_DEAD
  | COROUTINE_READY
  | COROUTINE_RUNNING
  | COROUTINE_SUSPEND
  deriving DecidableEq, Repr

open Status

/-- The value of `#define STACK_SIZE (1024*1024)`. -/
def STACK_SIZE : Int := 1024 * 1024

/-- The value of `#define DEFAULT_COROUTINE 16`. -/
def DEFAULT_COROUTINE : Int := 16

/-- A byte memory addressed by its offset from the base pointer. -/
abbrev Mem := Int → Nat

/-- The record `struct coroutine`; `func` and `ud` are opaque handles,
`stack = none` is the `NULL` private stack. -/
structure coroutine where
  func : Nat
  ud : Nat
  cap : Int
  size : Int
  status : Status
  stack : Option Mem

/-- The record `struct schedule`. -/
structure schedule where
  stack : Mem
  nco : Int
  cap : Int
  running : Int
  co : Int → Option coroutine

/-- The result of `memcpy(dst + d, src + s, n)`: the `n` bytes from offset
`s` of `src` land at offset `d` of `dst`. -/
def memcpy (dst : Mem) (d : Int) (src : Mem) (s : Int) (n : Int) : Mem :=
  fun a => if d ≤ a ∧ a < d + n then src (a - d + s) else dst a

/-- The function `_co_new`: a fresh READY record without private stack. -/
def _co_new (func ud : Nat) : coroutine :=
  { func := func, ud := ud, cap := 0, size := 0,
    status := COROUTINE_READY, stack := none }

/-- The function `coroutine_open`; `mem` is the indeterminate content of the
freshly allocated shared stack. -/
def coroutine_open (mem : Mem) : schedule :=
  { stack := mem, nco := 0, cap := DEFAULT_COROUTINE, running := -1,
    co := fun _ => none }

/-- The `for` loop of `coroutine_new`: `k` iterations remain and the loop
counter is `i`; running out of iterations reaches `assert(0)`. -/
def coroutine_new_scan (S : schedule) (c : coroutine) :
    Nat → Int → Option (Int × schedule)
  | 0, _ => none
  | k + 1, i =>
    let id := (i + S.nco).tmod S.cap
    match S.co id with
    | none =>
      some (id, { S with co := Function.update S.co id (some c),
                         nco := S.nco + 1 })
    | some _ => coroutine_new_scan S c k (i + 1)

/-- The function `coroutine_new`: the id returned and the new state. -/
def coroutine_new (S : schedule) (func ud : Nat) : Option (Int × schedule) :=
  let c := _co_new func ud
  if S.nco ≥ S.cap then
    let id := S.cap
    let grown : Int → Option coroutine :=
      fun i => if S.cap ≤ i ∧ i < S.cap + S.cap then none else S.co i
    some (id, { S with co := Function.update grown S.cap (some c),
                       cap := S.cap * 2,
                       nco := S.nco + 1 })
  else
    coroutine_new_scan S c S.cap.toNat 0

/-- The death sequence of `mainfunc`, run when `C->func` returns; `id` is
`S->running`, which is the same value at entry and at return because a
coroutine only executes while it is the running one. -/
def mainfunc (S : schedule) : Option schedule :=
  let id := S.running
  match S.co id with
  | none => none
  | some _ =>
    some { S with co := Function.update S.co id none,
                  nco := S.nco - 1,
                  running := -1 }

/-- The function `coroutine_resume` up to its `swapcontext`. -/
def coroutine_resume (S : schedule) (id : Int) : Option schedule :=
  if S.running ≠ -1 then none
  else if ¬ (id ≥ 0 ∧ id < S.cap) then none
  else
    match S.co id with
    | none => some S
    | some C =>
      match C.status with
      | COROUTINE_READY =>
        some { S with running := id,
                      co := Function.update S.co id
                        (some { C with status := COROUTINE_RUNNING }) }
      | COROUTINE_SUSPEND =>
        let stk : Mem :=
          match C.stack with
          | some p => memcpy S.stack (STACK_SIZE - C.size) p 0 C.size
          | none => S.stack
        some { S with stack := stk,
                      running := id,
                      co := Function.update S.co id
                        (some { C with status := COROUTINE_RUNNING }) }
      | _ => none

/-- The function `_save_stack`; `stk` is the shared stack with the frames of
`coroutine_yield` and `_save_stack` in place, `n` is `top - &dummy`, so
`dummy` is the byte at offset `STACK_SIZE - n`.  Returns the shared stack
(with `dummy` initialised) and the updated record. -/
def _save_stack (stk : Mem) (C : coroutine) (n : Int) : Option (Mem × coroutine) :=
  let stk1 : Mem := Function.update stk (STACK_SIZE - n) 0
  if ¬ (n ≤ STACK_SIZE) then none
  else
    let C1 : coroutine :=
      if C.cap < n then { C with cap := n, stack := some (fun _ => 0) } else C
    let C2 : coroutine := { C1 with size := n }
    let C3 : coroutine :=
      match C2.stack with
      | some p => { C2 with stack := some (memcpy p 0 stk1 (STACK_SIZE - n) C2.size) }
      | none => C2
    some (stk1, C3)

/-- The function `coroutine_yield` up to its `swapcontext`; `addrC` is the
offset `(char *)&C - S->stack` of its local `C`, and `n` is `top - &dummy`
as measured inside `_save_stack`.  `S.stack` is the shared stack with the
frames of the two functions in place.  The two measurements are taken as
given; in the program `STACK_SIZE - n < addrC`, `dummy` being a local of the
callee. -/
def coroutine_yield (S : schedule) (addrC n : Int) : Option schedule :=
  let id := S.running
  if ¬ (id ≥ 0) then none
  else
    match S.co id with
    | none => none
    | some C =>
      if ¬ (addrC > 0) then none
      else
        match _save_stack S.stack C n with
        | none => none
        | some (stk, C1) =>
          some { S with stack := stk,
                        running := -1,
                        co := Function.update S.co id
                          (some { C1 with status := COROUTINE_SUSPEND }) }

/-- The function `coroutine_status`. -/
def coroutine_status (S : schedule) (id : Int) : Option Status :=
  if ¬ (id ≥ 0 ∧ id < S.cap) then none
  else
    match S.co id with
    | none => some COROUTINE_DEAD
    | some C => some C.status

/-- The function `coroutine_running`. -/
def coroutine_running (S : schedule) : Int := S.running

/-- Scheduler states reachable from `coroutine_open` by the library's
operations, by the return of the running coroutine's function, and by the
running code writing to the shared stack. -/
inductive Reachable : schedule → Prop
  | init (mem : Mem) : Reachable (coroutine_open mem)
  | new {S S1 : schedule} {func ud : Nat} {id : Int} :
      Reachable S → coroutine_new S func ud = some (id, S1) → Reachable S1
  | resume {S S1 : schedule} {id : Int} :
      Reachable S → coroutine_resume S id = some S1 → Reachable S1
  | yield {S S1 : schedule} {addrC n : Int} :
      Reachable S → coroutine_yield S addrC n = some S1 → Reachable S1
  | ret {S S1 : schedule} :
      Reachable S → 0 ≤ S.running → mainfunc S = some S1 → Reachable S1
  | write {S : schedule} (stk : Mem) :
      Reachable S → Reachable { S with stack := stk }

/-- The number of non-`NULL` entries among `co[0..k-1]`. -/
def countLive (co : Int → Option coroutine) : Nat → Nat
  | 0 => 0
  | k + 1 => countLive co k + (if (co (k : Int)).isSome then 1 else 0)

/-- The state invariant kept by every operation: the table is non-empty,
`nco` counts the non-`NULL` slots below `cap`, a slot is RUNNING exactly when
it is the running one, `running` is the sentinel or a RUNNING slot, and no
stored record is DEAD. -/
def Inv (S : schedule) : Prop :=
  0 < S.cap ∧ 0 ≤ S.nco ∧ S.nco = (countLive S.co S.cap.toNat : Int) ∧
  (∀ i C, 0 ≤ i → i < S.cap → S.co i = some C →
    (C.status = COROUTINE_RUNNING ↔ i = S.running)) ∧
  (S.running = -1 ∨ (0 ≤ S.running ∧ S.running < S.cap ∧
    ∃ C, S.co S.running = some C ∧ C.status = COROUTINE_RUNNING)) ∧
  (∀ i C, 0 ≤ i → i < S.cap → S.co i = some C → C.status ≠ COROUTINE_DEAD)

/-- One event of a scheduler run: a library call, the return of the running
coroutine's function (`ret`), or the running code storing to the shared
stack (`write`). -/
inductive Op where
  | new (func ud : Nat)
  | resume (id : Int)
  | yield (addrC n : Int)
  | ret
  | write (stk : Mem)

/-- Runs a list of events from `S`; `none` when one of them fails. -/
def exec (S : schedule) : List Op → Option schedule
  | [] => some S
  | Op.new func ud :: ops =>
    match coroutine_new S func ud with
    | none => none
    | some (_, S1) => exec S1 ops
  | Op.resume id :: ops =>
    match coroutine_resume S id with
    | none => none
    | some S1 => exec S1 ops
  | Op.yield addrC n :: ops =>
    match coroutine_yield S addrC n with
    | none => none
    | some S1 => exec S1 ops
  | Op.ret :: ops =>
    if 0 ≤ S.running then
      match mainfunc S with
      | none => none
      | some S1 => exec S1 ops
    else none
  | Op.write stk :: ops => exec { S with stack := stk } ops

/-- The state after running `ops` on a scheduler opened over `mem` (the
opened scheduler itself when an event fails). -/
def run (mem : Mem) (ops : List Op) : schedule :=
  (exec (coroutine_open mem) ops).getD (coroutine_open mem)

/-- A full table of sixteen coroutines in which the one in slot 0 has been
resumed and is running. -/
def full_table_running : schedule :=
  run (fun _ => 0) (List.replicate 16 (Op.new 0 0) ++ [Op.resume 0])

/-- Two coroutines A and B exist, A runs and has filled the shared stack with
the bytes `a % 256`. -/
def isolation_start : schedule :=
  run (fun _ => 0) [Op.new 0 0, Op.new 1 0, Op.resume 0, Op.write (fun a => (a % 256).toNat)]

/-- The events between A's yield and its next resume: B runs, overwrites the
shared stack and yields; a third coroutine is created, runs on an overwritten
stack and returns. -/
def isolation_events : List Op :=
  [Op.resume 1, Op.write (fun _ => 7), Op.yield 1048409 200, Op.new 2 0, Op.resume 2,
   Op.write (fun _ => 9), Op.ret]

/-- The scenario "slot reuse": create A, create B, run A to completion,
create C; the three ids returned. -/
def slot_reuse_ids (mem : Mem) : Option (Int × Int × Int) :=
  match coroutine_new (coroutine_open mem) 0 0 with
  | none => none
  | some (a, S1) =>
    match coroutine_new S1 1 0 with
    | none => none
    | some (b, S2) =>
      match coroutine_resume S2 a with
      | none => none
      | some S3 =>
        match mainfunc S3 with
        | none => none
        | some S4 =>
          match coroutine_new S4 2 0 with
          | none => none
          | some (c, _) => some (a, b, c)

/-- Calls `coroutine_new` once per `(func, ud)` pair, in order, without
running any coroutine; the ids returned and the final state. -/
def coroutine_new_many (S : schedule) : List (Nat × Nat) → Option (List Int × schedule)
  | [] => some ([], S)
  | (func, ud) :: rest =>
    match coroutine_new S func ud with
    | none => none
    | some (id, S1) =>
      match coroutine_new_many S1 rest with
      | none => none
      | some (ids, S2) => some (id :: ids, S2)

/-- Runs a list of events like `exec` and records, for every slot, the live
lengths `n = top - &dummy` its current coroutine has yielded with so far
(latest first); the list of a slot is emptied when a coroutine is created in
it. -/
def exec_hist (S : schedule) (h : Int → List Int) :
    List Op → Option (schedule × (Int → List Int))
  | [] => some (S, h)
  | Op.new func ud :: ops =>
    match coroutine_new S func ud with
    | none => none
    | some (id, S1) => exec_hist S1 (Function.update h id []) ops
  | Op.resume id :: ops =>
    match coroutine_resume S id with
    | none => none
    | some S1 => exec_hist S1 h ops
  | Op.yield addrC n :: ops =>
    match coroutine_yield S addrC n with
    | none => none
    | some S1 => exec_hist S1 (Function.update h S.running (n :: h S.running)) ops
  | Op.ret :: ops =>
    if 0 ≤ S.running then
      match mainfunc S with
      | none => none
      | some S1 => exec_hist S1 h ops
    else none
  | Op.write stk :: ops => exec_hist { S with stack := stk } h ops

/-- The well-formedness of a stored record: the private capacity lies in
`[0, STACK_SIZE]`, a record without private stack has capacity 0, and a
suspended record's saved size fits its capacity. -/
def RecOK (C : coroutine) : Prop :=
  0 ≤ C.cap ∧ C.cap ≤ STACK_SIZE ∧ (C.stack = none → C.cap = 0) ∧
  (C.status = COROUTINE_SUSPEND → C.size ≤ C.cap)

/-- The first argument `(uint32_t)ptr` that `coroutine_resume` hands to
`makecontext`; `ptr` is a `uintptr_t`. -/
def makecontext_low32 (ptr : Nat) : Nat := ptr % 2 ^ 32

/-- The second argument `(uint32_t)(ptr>>32)` that `coroutine_resume` hands
to `makecontext`. -/
def makecontext_hi32 (ptr : Nat) : Nat := (ptr >>> 32) % 2 ^ 32

/-- The pointer `(uintptr_t)low32 | ((uintptr_t)hi32 << 32)` rebuilt by
`mainfunc`, with `uintptr_t` 64 bits wide. -/
def mainfunc_ptr (low32 hi32 : Nat) : Nat :=
  (low32 % 2 ^ 64) ||| ((hi32 % 2 ^ 64) <<< 32) % 2 ^ 64

/-- The largest value of C's 32-bit `int`. -/
def INT_MAX : Int := 2147483647

/-- The least value of C's 32-bit `int`. -/
def INT_MIN : Int := -2147483648

/-- The `for` loop of `coroutine_new` with its `int` arithmetic checked: the
sum `i + S->nco` and the increment `++S->nco` must stay in the range of
`int`, otherwise the signed operation overflows and the result is `none`. -/
def coroutine_new_scan_int (S : schedule) (c : coroutine) :
    Nat → Int → Option (Int × schedule)
  | 0, _ => none
  | k + 1, i =>
    if ¬ (INT_MIN ≤ i + S.nco ∧ i + S.nco ≤ INT_MAX) then none
    else
      let id := (i + S.nco).tmod S.cap
      match S.co id with
      | none =>
        if ¬ (S.nco + 1 ≤ INT_MAX) then none
        else
          some (id, { S with co := Function.update S.co id (some c),
                             nco := S.nco + 1 })
      | some _ => coroutine_new_scan_int S c k (i + 1)

/-- The function `coroutine_new` with its `int` arithmetic checked: in the
growing branch the product `S->cap * 2` (in the `realloc` size and in
`S->cap *= 2`) and the increment `++S->nco` must stay in the range of `int`;
an overflow is `none`. -/
def coroutine_new_int (S : schedule) (func ud : Nat) : Option (Int × schedule) :=
  let c := _co_new func ud
  if S.nco ≥ S.cap then
    if ¬ (INT_MIN ≤ S.cap * 2 ∧ S.cap * 2 ≤ INT_MAX) then none
    else if ¬ (S.nco + 1 ≤ INT_MAX) then none
    else
      let id := S.cap
      let grown : Int → Option coroutine :=
        fun i => if S.cap ≤ i ∧ i < S.cap + S.cap then none else S.co i
      some (id, { S with co := Function.update grown S.cap (some c),
                         cap := S.cap * 2,
                         nco := S.nco + 1 })
  else
    coroutine_new_scan_int S c S.cap.toNat 0

/-- Calls `coroutine_new_int` once per `(func, ud)` pair, in order, without
running any coroutine; the ids returned and the final state. -/
def coroutine_new_many_int (S : schedule) :
    List (Nat × Nat) → Option (List Int × schedule)
  | [] => some ([], S)
  | (func, ud) :: rest =>
    match coroutine_new_int S func ud with
    | none => none
    | some (id, S1) =>
      match coroutine_new_many_int S1 rest with
      | none => none
      | some (ids, S2) => some (id :: ids, S2)

/-- A full table of `2^30` READY coroutines: `nco = cap = 2^30`. -/
def table_of_two_pow_30 : schedule :=
  { stack := fun _ => 0, nco := 1073741824, cap := 1073741824, running := -1,
    co := fun i => if 0 ≤ i ∧ i < 1073741824 then some (_co_new 0 0) else none }

/-- A running coroutine whose shared stack holds the byte `a % 256` at every
offset `a`, as when it keeps an array in its frames. -/
def array_on_stack : schedule :=
  run (fun _ => 0) [Op.new 0 0, Op.resume 0, Op.write (fun a => (a % 256).toNat)]

/-- The shared stack of `array_on_stack` once a call has pushed frames (bytes
5) below the top 1040 bytes. -/
def frames_pushed : Mem :=
  fun a => if a < STACK_SIZE - 1040 then 5 else (a % 256).toNat

/-- A running coroutine over a shared stack whose bytes are all 7. -/
def stack_of_sevens : schedule :=
  run (fun _ => 0) [Op.new 0 0, Op.resume 0, Op.write (fun _ => 7)]

/-! ## Counting live slots -/

theorem countLive_le (co : Int → Option coroutine) (k : Nat) : countLive co k ≤ k := by
  induction k with
  | zero => simp [countLive]
  | succ k ih =>
    simp only [countLive]
    split <;> omega

theorem countLive_congr (co co1 : Int → Option coroutine) (k : Nat)
    (h : ∀ i : Nat, i < k → (co1 (i : Int)).isSome = (co (i : Int)).isSome) :
    countLive co1 k = countLive co k := by
  induction k with
  | zero => simp [countLive]
  | succ k ih =>
    simp only [countLive]
    rw [ih (fun i hi => h i (by omega)), h k (by omega)]

theorem countLive_update_outside (co : Int → Option coroutine) (k : Nat) (j : Int)
    (v : Option coroutine) (hj : j < 0 ∨ (k : Int) ≤ j) :
    countLive (Function.update co j v) k = countLive co k := by
  apply countLive_congr
  intro i hi
  have : (i : Int) ≠ j := by omega
  simp [Function.update, this]

theorem countLive_update_isSome (co : Int → Option coroutine) (k : Nat) (j : Int)
    (v : Option coroutine) (hv : v.isSome = (co j).isSome) :
    countLive (Function.update co j v) k = countLive co k := by
  apply countLive_congr
  intro i _
  by_cases hij : (i : Int) = j
  · simp [Function.update, hij, hv]
  · simp [Function.update, hij]

theorem countLive_update_some (co : Int → Option coroutine) (k : Nat) (j : Int)
    (c : coroutine) (h0 : 0 ≤ j) (hk : j < (k : Int)) (hn : co j = none) :
    countLive (Function.update co j (some c)) k = countLive co k + 1 := by
  induction k with
  | zero => omega
  | succ k ih =>
    simp only [countLive]
    by_cases hjk : j = (k : Int)
    · subst hjk
      rw [countLive_update_outside co k _ _ (Or.inr (le_refl _))]
      simp [hn]
    · have hlt : j < (k : Int) := by omega
      have hne : (k : Int) ≠ j := fun h => hjk h.symm
      rw [ih hlt]
      simp only [Function.update, hne, dite_false]
      omega

theorem countLive_update_none (co : Int → Option coroutine) (k : Nat) (j : Int)
    (c : coroutine) (h0 : 0 ≤ j) (hk : j < (k : Int)) (hs : co j = some c) :
    countLive (Function.update co j none) k + 1 = countLive co k := by
  have h1 := countLive_update_some (Function.update co j none) k j c h0 hk (by simp)
  have h2 : Function.update (Function.update co j none) j (some c) = co := by
    funext i
    by_cases hij : i = j
    · subst hij; simp [hs]
    · simp [Function.update, hij]
  rw [h2] at h1
  omega

theorem countLive_exists_none (co : Int → Option coroutine) (k : Nat)
    (h : countLive co k < k) : ∃ i : Nat, i < k ∧ co (i : Int) = none := by
  induction k with
  | zero => omega
  | succ k ih =>
    simp only [countLive] at h
    cases hck : co (k : Int) with
    | none => exact ⟨k, by omega, hck⟩
    | some c =>
      simp [hck] at h
      obtain ⟨i, hi, hn⟩ := ih h
      exact ⟨i, by omega, hn⟩

theorem countLive_extend (co : Int → Option coroutine) (a m : Nat)
    (h : ∀ i : Nat, a ≤ i → i < a + m → co (i : Int) = none) :
    countLive co (a + m) = countLive co a := by
  induction m with
  | zero => rfl
  | succ m ih =>
    have e : a + (m + 1) = (a + m) + 1 := by omega
    rw [e]
    simp only [countLive]
    rw [ih (fun i h1 h2 => h i h1 (by omega)), h (a + m) (by omega) (by omega)]
    simp

/-! ## The slot scan of `coroutine_new` -/

theorem coroutine_new_scan_found (S : schedule) (c : coroutine) :
    ∀ (k : Nat) (i : Int) (j : Nat), j < k →
      S.co ((i + (j : Int) + S.nco).tmod S.cap) = none →
      (∀ j1 : Nat, j1 < j → S.co ((i + (j1 : Int) + S.nco).tmod S.cap) ≠ none) →
      coroutine_new_scan S c k i =
        some ((i + (j : Int) + S.nco).tmod S.cap,
          { S with co := Function.update S.co ((i + (j : Int) + S.nco).tmod S.cap) (some c),
                   nco := S.nco + 1 }) := by
  intro k
  induction k with
  | zero => intro i j hj; omega
  | succ k ih =>
    intro i j hj hnone hfirst
    cases j with
    | zero =>
      simp only [Nat.cast_zero, add_zero] at hnone ⊢
      simp only [coroutine_new_scan, hnone]
    | succ j =>
      have h0 := hfirst 0 (by omega)
      simp only [Nat.cast_zero, add_zero] at h0
      obtain ⟨c0, hc0⟩ := Option.ne_none_iff_exists'.mp h0
      have e : ∀ m : Nat, i + 1 + (m : Int) + S.nco = i + ((m + 1 : Nat) : Int) + S.nco := by
        intro m; push_cast; ring
      have := ih (i + 1) j (by omega) (by rw [e]; exact hnone)
        (fun j1 hj1 => by rw [e]; exact hfirst (j1 + 1) (by omega))
      rw [e] at this
      simp only [coroutine_new_scan, hc0]
      exact this

theorem scan_index_eq (nco cap : Int) (j : Nat) (h0 : 0 ≤ nco) (hc : 0 < cap) :
    ((0 : Int) + (j : Int) + nco).tmod cap = (nco + (j : Int)) % cap := by
  rw [Int.tmod_eq_emod (by omega) (by omega)]
  congr 1
  ring

theorem scan_covers (nco cap m : Int) (hc : 0 < cap) (hm0 : 0 ≤ m) (hm : m < cap) :
    ∃ j : Nat, (j : Int) < cap ∧ (nco + (j : Int)) % cap = m := by
  refine ⟨((m - nco) % cap).toNat, ?_, ?_⟩
  · rw [Int.toNat_of_nonneg (Int.emod_nonneg _ (by omega))]
    exact Int.emod_lt_of_pos _ hc
  · rw [Int.toNat_of_nonneg (Int.emod_nonneg _ (by omega))]
    rw [Int.add_emod, Int.emod_emod, ← Int.add_emod]
    have : nco + (m - nco) = m := by ring
    rw [this]
    exact Int.emod_eq_of_lt hm0 hm

/-- In the non-growing branch with a free slot below `cap`, `coroutine_new`
installs the record in the first free slot of the cyclic order that starts at
`nco % cap`. -/
theorem coroutine_new_first_free (S : schedule) (func ud : Nat)
    (h0 : 0 ≤ S.nco) (hlt : S.nco < S.cap)
    (hex : ∃ m : Int, 0 ≤ m ∧ m < S.cap ∧ S.co m = none) :
    ∃ j : Nat, (j : Int) < S.cap ∧ S.co ((S.nco + (j : Int)) % S.cap) = none ∧
      (∀ j1 : Nat, j1 < j → S.co ((S.nco + (j1 : Int)) % S.cap) ≠ none) ∧
      coroutine_new S func ud =
        some ((S.nco + (j : Int)) % S.cap,
          { S with co := Function.update S.co ((S.nco + (j : Int)) % S.cap)
                           (some (_co_new func ud)),
                   nco := S.nco + 1 }) := by
  have hc : 0 < S.cap := by omega
  obtain ⟨m, hm0, hm, hmn⟩ := hex
  obtain ⟨j0, hj0, hj0m⟩ := scan_covers S.nco S.cap m hc hm0 hm
  have hP : ∃ j : Nat, (j : Int) < S.cap ∧ S.co ((S.nco + (j : Int)) % S.cap) = none :=
    ⟨j0, hj0, by rw [hj0m]; exact hmn⟩
  classical
  refine ⟨Nat.find hP, (Nat.find_spec hP).1, (Nat.find_spec hP).2, ?_, ?_⟩
  · intro j1 hj1 hn
    exact Nat.find_min hP hj1 ⟨by have := (Nat.find_spec hP).1; omega, hn⟩
  · have hfound := coroutine_new_scan_found S (_co_new func ud) S.cap.toNat 0 (Nat.find hP)
      (by have := (Nat.find_spec hP).1; omega)
      (by rw [scan_index_eq _ _ _ h0 hc]; exact (Nat.find_spec hP).2)
      (fun j1 hj1 => by
        rw [scan_index_eq _ _ _ h0 hc]
        intro hn
        exact Nat.find_min hP hj1 ⟨by have := (Nat.find_spec hP).1; omega, hn⟩)
    rw [scan_index_eq _ _ _ h0 hc] at hfound
    simp only [coroutine_new, ge_iff_le, not_le.mpr hlt, if_false]
    exact hfound

/-! ## The invariant is kept by every operation -/

theorem countLive_empty (k : Nat) : countLive (fun _ => none) k = 0 := by
  induction k with
  | zero => rfl
  | succ k ih => simp [countLive, ih]

theorem Inv_open (mem : Mem) : Inv (coroutine_open mem) := by
  refine ⟨?_, ?_, ?_, ?_, Or.inl rfl, ?_⟩
  · simp [coroutine_open, DEFAULT_COROUTINE]
  · simp [coroutine_open]
  · simp [coroutine_open, countLive_empty]
  · intro i C _ _ h
    simp [coroutine_open] at h
  · intro i C _ _ h
    simp [coroutine_open] at h

/-- The state after `coroutine_new` installed a record in a free slot below
`cap` keeps the invariant. -/
theorem Inv_install (S : schedule) (hI : Inv S) (id : Int) (c : coroutine)
    (h0 : 0 ≤ id) (hlt : id < S.cap) (hn : S.co id = none)
    (hc : c.status = COROUTINE_READY) :
    Inv { S with co := Function.update S.co id (some c), nco := S.nco + 1 } := by
  obtain ⟨hcap, hnco, hcount, hrun, hcur, hdead⟩ := hI
  have hidr : id ≠ S.running := by
    rcases hcur with h | ⟨_, _, C, hC, _⟩
    · omega
    · intro e; rw [← e, hn] at hC; cases hC
  refine ⟨hcap, by show 0 ≤ S.nco + 1; omega, ?_, ?_, ?_, ?_⟩
  · show S.nco + 1 = ((countLive (Function.update S.co id (some c)) S.cap.toNat : Nat) : Int)
    rw [countLive_update_some S.co S.cap.toNat id c h0 (by omega) hn]
    push_cast; omega
  · intro i C hi0 hi hC
    show C.status = COROUTINE_RUNNING ↔ i = S.running
    by_cases hid : i = id
    · subst hid
      simp only [Function.update_same, Option.some.injEq] at hC
      subst hC
      simp [hc, hidr]
    · simp only [Function.update_noteq hid] at hC
      exact hrun i C hi0 hi hC
  · rcases hcur with h | ⟨h1, h2, C, hC, hCs⟩
    · exact Or.inl h
    · refine Or.inr ⟨h1, h2, C, ?_, hCs⟩
      show Function.update S.co id (some c) S.running = some C
      rw [Function.update_noteq (Ne.symm hidr)]
      exact hC
  · intro i C hi0 hi hC
    by_cases hid : i = id
    · subst hid
      simp only [Function.update_same, Option.some.injEq] at hC
      subst hC
      simp [hc]
    · simp only [Function.update_noteq hid] at hC
      exact hdead i C hi0 hi hC

/-- The state after `coroutine_new` doubled the table keeps the invariant. -/
theorem Inv_grow (S : schedule) (hI : Inv S) (c : coroutine)
    (hc : c.status = COROUTINE_READY) :
    Inv { S with co := Function.update
                   (fun i => if S.cap ≤ i ∧ i < S.cap + S.cap then none else S.co i)
                   S.cap (some c),
                 cap := S.cap * 2,
                 nco := S.nco + 1 } := by
  obtain ⟨hcap, hnco, hcount, hrun, hcur, hdead⟩ := hI
  have hrc : S.running < S.cap := by
    rcases hcur with h | ⟨_, h, _⟩ <;> omega
  have hgrown : ∀ i : Int, i ≠ S.cap → ∀ C,
      Function.update (fun i => if S.cap ≤ i ∧ i < S.cap + S.cap then none else S.co i)
        S.cap (some c) i = some C → i < S.cap + S.cap → i < S.cap ∧ S.co i = some C := by
    intro i hi C hC hi2
    rw [Function.update_noteq hi] at hC
    by_cases hr : S.cap ≤ i ∧ i < S.cap + S.cap
    · simp [hr] at hC
    · simp only [hr, if_false] at hC
      exact ⟨by omega, hC⟩
  refine ⟨by show 0 < S.cap * 2; omega, by show 0 ≤ S.nco + 1; omega, ?_, ?_, ?_, ?_⟩
  · show S.nco + 1 = ((countLive _ (S.cap * 2).toNat : Nat) : Int)
    have e : (S.cap * 2).toNat = S.cap.toNat + S.cap.toNat := by omega
    rw [e, countLive_update_some _ _ S.cap c (by omega) (by omega) (by simp; omega)]
    rw [countLive_extend _ S.cap.toNat S.cap.toNat (fun i h1 h2 => by
      have : S.cap ≤ (i : Int) ∧ (i : Int) < S.cap + S.cap := by omega
      simp [this])]
    rw [countLive_congr S.co _ S.cap.toNat (fun i hi => by
      have : ¬ (S.cap ≤ (i : Int) ∧ (i : Int) < S.cap + S.cap) := by omega
      simp [this])]
    push_cast; omega
  · intro i C hi0 hi hC
    show C.status = COROUTINE_RUNNING ↔ i = S.running
    by_cases hid : i = S.cap
    · subst hid
      simp only [Function.update_same, Option.some.injEq] at hC
      subst hC
      simp only [hc]
      constructor
      · intro h; cases h
      · intro h; omega
    · obtain ⟨h1, h2⟩ := hgrown i hid C hC (by show i < S.cap + S.cap; have : i < S.cap * 2 := hi; omega)
      exact hrun i C hi0 h1 h2
  · rcases hcur with h | ⟨h1, h2, C, hC, hCs⟩
    · exact Or.inl h
    · refine Or.inr ⟨h1, by show S.running < S.cap * 2; omega, C, ?_, hCs⟩
      dsimp only
      rw [Function.update_noteq (by omega)]
      have : ¬ (S.cap ≤ S.running ∧ S.running < S.cap + S.cap) := by omega
      simp only [this, if_false]
      exact hC
  · intro i C hi0 hi hC
    by_cases hid : i = S.cap
    · subst hid
      simp only [Function.update_same, Option.some.injEq] at hC
      subst hC
      simp [hc]
    · obtain ⟨h1, h2⟩ := hgrown i hid C hC (by show i < S.cap + S.cap; have : i < S.cap * 2 := hi; omega)
      exact hdead i C hi0 h1 h2

/-- Under the invariant `coroutine_new` returns, in one of two ways: it fills
a free slot below `cap`, or it doubles a full table and fills slot `cap`. -/
theorem coroutine_new_cases (S : schedule) (hI : Inv S) (func ud : Nat) :
    (S.nco < S.cap ∧ ∃ id : Int, 0 ≤ id ∧ id < S.cap ∧ S.co id = none ∧
      coroutine_new S func ud =
        some (id, { S with co := Function.update S.co id (some (_co_new func ud)),
                           nco := S.nco + 1 })) ∨
    (S.cap ≤ S.nco ∧
      coroutine_new S func ud =
        some (S.cap,
          { S with co := Function.update
                     (fun i => if S.cap ≤ i ∧ i < S.cap + S.cap then none else S.co i)
                     S.cap (some (_co_new func ud)),
                   cap := S.cap * 2,
                   nco := S.nco + 1 })) := by
  by_cases hlt : S.nco < S.cap
  · left
    refine ⟨hlt, ?_⟩
    obtain ⟨hcap, hnco, hcount, -⟩ := hI
    obtain ⟨m, hm, hmn⟩ := countLive_exists_none S.co S.cap.toNat (by omega)
    obtain ⟨j, hj, hjn, -, hnew⟩ := coroutine_new_first_free S func ud hnco hlt
      ⟨(m : Int), by omega, by omega, hmn⟩
    exact ⟨(S.nco + (j : Int)) % S.cap, Int.emod_nonneg _ (by omega),
      Int.emod_lt_of_pos _ hcap, hjn, hnew⟩
  · right
    refine ⟨by omega, ?_⟩
    simp only [coroutine_new, ge_iff_le, not_lt.mp hlt, if_true]

theorem Inv_new (S S1 : schedule) (hI : Inv S) (func ud : Nat) (id : Int)
    (h : coroutine_new S func ud = some (id, S1)) : Inv S1 := by
  rcases coroutine_new_cases S hI func ud with ⟨_, id1, h0, h1, hn, he⟩ | ⟨_, he⟩
  · rw [he] at h
    simp only [Option.some.injEq, Prod.mk.injEq] at h
    rw [← h.2]
    exact Inv_install S hI id1 _ h0 h1 hn rfl
  · rw [he] at h
    simp only [Option.some.injEq, Prod.mk.injEq] at h
    rw [← h.2]
    exact Inv_grow S hI _ rfl

/-- Replacing the record of the slot `id` by one of another status, and
moving `running`, keeps the invariant when the new status and the new
`running` agree. -/
theorem Inv_set_status (S : schedule) (hI : Inv S) (id r : Int) (C C1 : coroutine)
    (stk : Mem) (h0 : 0 ≤ id) (hlt : id < S.cap) (hC : S.co id = some C)
    (hnd : C1.status ≠ COROUTINE_DEAD)
    (hr : (r = id ∧ C1.status = COROUTINE_RUNNING ∧ S.running = -1) ∨
          (r = -1 ∧ C1.status ≠ COROUTINE_RUNNING ∧ S.running = id)) :
    Inv { S with stack := stk, running := r,
                 co := Function.update S.co id (some C1) } := by
  obtain ⟨hcap, hnco, hcount, hrun, hcur, hdead⟩ := hI
  refine ⟨hcap, hnco, ?_, ?_, ?_, ?_⟩
  · show S.nco = ((countLive (Function.update S.co id (some C1)) S.cap.toNat : Nat) : Int)
    rw [countLive_update_isSome S.co _ id (some C1) (by simp [hC])]
    exact hcount
  · intro i D hi0 hi hD
    show D.status = COROUTINE_RUNNING ↔ i = r
    by_cases hid : i = id
    · subst hid
      simp only [Function.update_same, Option.some.injEq] at hD
      subst hD
      rcases hr with ⟨h1, h2, _⟩ | ⟨h1, h2, _⟩
      · simp [h1, h2]
      · simp only [h2, false_iff]; omega
    · simp only [Function.update_noteq hid] at hD
      have := hrun i D hi0 hi hD
      rcases hr with ⟨h1, _, h3⟩ | ⟨h1, _, h3⟩
      · rw [this, h3, h1]
        constructor
        · intro h; omega
        · intro h; exact absurd h hid
      · rw [this, h3, h1]
        constructor
        · intro h; exact absurd h hid
        · intro h; omega
  · rcases hr with ⟨h1, h2, _⟩ | ⟨h1, _, _⟩
    · refine Or.inr ⟨by show 0 ≤ r; omega, by show r < S.cap; omega, C1, ?_, h2⟩
      show Function.update S.co id (some C1) r = some C1
      rw [h1, Function.update_same]
    · exact Or.inl h1
  · intro i D hi0 hi hD
    by_cases hid : i = id
    · subst hid
      simp only [Function.update_same, Option.some.injEq] at hD
      subst hD
      exact hnd
    · simp only [Function.update_noteq hid] at hD
      exact hdead i D hi0 hi hD

theorem Inv_resume (S S1 : schedule) (hI : Inv S) (id : Int)
    (h : coroutine_resume S id = some S1) : Inv S1 := by
  unfold coroutine_resume at h
  split at h
  · cases h
  · rename_i hrun
    split at h
    · cases h
    · rename_i hid
      simp only [ne_eq, not_not] at hrun hid
      split at h
      · simp only [Option.some.injEq] at h
        rw [← h]; exact hI
      · rename_i C hC
        split at h
        · simp only [Option.some.injEq] at h
          rw [← h]
          have := Inv_set_status S hI id id C { C with status := COROUTINE_RUNNING } S.stack
            hid.1 hid.2 hC (by simp) (Or.inl ⟨rfl, rfl, hrun⟩)
          exact this
        · simp only [Option.some.injEq] at h
          rw [← h]
          exact Inv_set_status S hI id id C { C with status := COROUTINE_RUNNING } _
            hid.1 hid.2 hC (by simp) (Or.inl ⟨rfl, rfl, hrun⟩)
        · cases h

theorem Inv_yield (S S1 : schedule) (hI : Inv S) (addrC n : Int)
    (h : coroutine_yield S addrC n = some S1) : Inv S1 := by
  unfold coroutine_yield at h
  simp only at h
  split at h
  · cases h
  · rename_i hrun
    simp only [ge_iff_le, not_not] at hrun
    have hlt : S.running < S.cap := by
      rcases hI.2.2.2.2.1 with h1 | ⟨_, h1, _⟩ <;> omega
    split at h
    · cases h
    · rename_i C hC
      split at h
      · cases h
      · split at h
        · cases h
        · rename_i stk C1 _
          simp only [Option.some.injEq] at h
          rw [← h]
          exact Inv_set_status S hI S.running (-1) C { C1 with status := COROUTINE_SUSPEND } stk
            hrun hlt hC (by simp) (Or.inr ⟨rfl, by simp, rfl⟩)

theorem Inv_mainfunc (S S1 : schedule) (hI : Inv S) (hrun : 0 ≤ S.running)
    (h : mainfunc S = some S1) : Inv S1 := by
  unfold mainfunc at h
  simp only at h
  split at h
  · cases h
  · rename_i C hC
    simp only [Option.some.injEq] at h
    rw [← h]
    obtain ⟨hcap, hnco, hcount, hrn, hcur, hdead⟩ := hI
    have hlt : S.running < S.cap := by
      rcases hcur with h1 | ⟨_, h1, _⟩ <;> omega
    have hc := countLive_update_none S.co S.cap.toNat S.running C hrun (by omega) hC
    refine ⟨hcap, by show 0 ≤ S.nco - 1; omega, by
      show S.nco - 1 = ((countLive (Function.update S.co S.running none) S.cap.toNat : Nat) : Int)
      omega, ?_, Or.inl rfl, ?_⟩
    · intro i D hi0 hi hD
      show D.status = COROUTINE_RUNNING ↔ i = -1
      by_cases hid : i = S.running
      · subst hid
        simp at hD
      · simp only [Function.update_noteq hid] at hD
        have := hrn i D hi0 hi hD
        rw [this]
        constructor
        · intro e; exact absurd e hid
        · intro e; omega
    · intro i D hi0 hi hD
      by_cases hid : i = S.running
      · subst hid
        simp at hD
      · simp only [Function.update_noteq hid] at hD
        exact hdead i D hi0 hi hD

/-- Every reachable state satisfies the invariant. -/
theorem Reachable.inv {S : schedule} (h : Reachable S) : Inv S := by
  induction h with
  | init mem => exact Inv_open mem
  | new _ hn ih => exact Inv_new _ _ ih _ _ _ hn
  | resume _ hr ih => exact Inv_resume _ _ ih _ hr
  | yield _ hy ih => exact Inv_yield _ _ ih _ _ hy
  | ret _ h0 hm ih => exact Inv_mainfunc _ _ ih h0 hm
  | write stk _ ih => exact ih

theorem Reachable_exec {S : schedule} (ops : List Op) :
    ∀ {S1 : schedule}, Reachable S → exec S ops = some S1 → Reachable S1 := by
  induction ops generalizing S with
  | nil =>
    intro S1 hR h
    simp only [exec, Option.some.injEq] at h
    rw [← h]; exact hR
  | cons op ops ih =>
    intro S1 hR h
    cases op with
    | new func ud =>
      simp only [exec] at h
      split at h
      · cases h
      · rename_i hn
        exact ih (Reachable.new hR hn) h
    | resume id =>
      simp only [exec] at h
      split at h
      · cases h
      · rename_i hn
        exact ih (Reachable.resume hR hn) h
    | yield addrC n =>
      simp only [exec] at h
      split at h
      · cases h
      · rename_i hn
        exact ih (Reachable.yield hR hn) h
    | ret =>
      simp only [exec] at h
      split at h
      · rename_i h0
        split at h
        · cases h
        · rename_i hn
          exact ih (Reachable.ret hR h0 hn) h
      · cases h
    | write stk =>
      simp only [exec] at h
      exact ih (Reachable.write stk hR) h

theorem Reachable_run (mem : Mem) (ops : List Op) : Reachable (run mem ops) := by
  unfold run
  cases h : exec (coroutine_open mem) ops with
  | none => exact Reachable.init mem
  | some S1 => exact Reachable_exec ops (Reachable.init mem) h

theorem emod_sub_cancel_left (x y c : Int) : (x % c - y) % c = (x - y) % c := by
  rw [Int.sub_emod, Int.emod_emod, ← Int.sub_emod]

/-! ## Slot allocation -/

/-- C1 (as stated, refuted): in the scenario "create A, create B, run A to
completion, create C" the ids are 0, 1 and 2: C does not get A's slot 0,
because the scan starts at `nco % cap = 1` and slot 2 is the first free one
from there. -/
theorem slot_reuse_scenario_ids : slot_reuse_ids (fun _ => 0) = some (0, 1, 2) := by
  decide

/-- C1 (amended): after the running coroutine `d` of a reachable state has run
to completion its slot is free, and the next `coroutine_new` returns `d` if and
only if every slot that precedes `d` in the cyclic order starting at
`nco % cap` (`nco` taken after the death) is occupied. -/
theorem slot_reuse_iff (S S1 : schedule) (func ud : Nat) (hR : Reachable S)
    (hrun : 0 ≤ S.running) (hdie : mainfunc S = some S1) :
    S1.co S.running = none ∧
    ((∃ S2, coroutine_new S1 func ud = some (S.running, S2)) ↔
      ∀ j : Nat, (j : Int) < (S.running - S1.nco) % S1.cap →
        S1.co ((S1.nco + (j : Int)) % S1.cap) ≠ none) := by
  have hI := hR.inv
  have hI1 := Inv_mainfunc S S1 hI hrun hdie
  have hlt : S.running < S.cap := by
    rcases hI.2.2.2.2.1 with h1 | ⟨_, h1, _⟩ <;> omega
  have hle := countLive_le S.co S.cap.toNat
  have hcnt := hI.2.2.1
  have hcap := hI.1
  unfold mainfunc at hdie
  simp only at hdie
  split at hdie
  · cases hdie
  · simp only [Option.some.injEq] at hdie
    have hco : S1.co S.running = none := by rw [← hdie]; simp
    have hcap1 : S1.cap = S.cap := by rw [← hdie]
    have hnco1 : S1.nco = S.nco - 1 := by rw [← hdie]
    refine ⟨hco, ?_⟩
    obtain ⟨j, hj, hjn, hjmin, hnew⟩ := coroutine_new_first_free S1 func ud hI1.2.1
      (by omega) ⟨S.running, hrun, by omega, hco⟩
    have hc1 : 0 < S1.cap := hI1.1
    have hd0 : 0 ≤ (S.running - S1.nco) % S1.cap := Int.emod_nonneg _ (by omega)
    have hd1 : (S.running - S1.nco) % S1.cap < S1.cap := Int.emod_lt_of_pos _ hc1
    have hback : (S1.nco + (S.running - S1.nco) % S1.cap) % S1.cap = S.running := by
      rw [Int.add_emod, Int.emod_emod, ← Int.add_emod]
      have : S1.nco + (S.running - S1.nco) = S.running := by ring
      rw [this]
      exact Int.emod_eq_of_lt hrun (by omega)
    constructor
    · rintro ⟨S2, h2⟩
      rw [hnew] at h2
      simp only [Option.some.injEq, Prod.mk.injEq] at h2
      have hjd : (j : Int) = (S.running - S1.nco) % S1.cap := by
        rw [← h2.1, emod_sub_cancel_left]
        have : S1.nco + (j : Int) - S1.nco = (j : Int) := by ring
        rw [this]
        exact (Int.emod_eq_of_lt (by omega) hj).symm
      intro j1 hj1
      exact hjmin j1 (by omega)
    · intro hall
      have hjd : (j : Int) = (S.running - S1.nco) % S1.cap := by
        rcases lt_trichotomy (j : Int) ((S.running - S1.nco) % S1.cap) with h | h | h
        · exact absurd hjn (hall j h)
        · exact h
        · exfalso
          have := hjmin ((S.running - S1.nco) % S1.cap).toNat (by omega)
          rw [Int.toNat_of_nonneg hd0, hback] at this
          exact this hco
      rw [hjd, hback] at hnew
      exact ⟨_, hnew⟩

/-- Witness of C1 (amended): sixteen coroutines fill the table and the one
in slot 0 runs to completion; the scan starts at `nco % cap = 15`, finds slot
15 occupied, wraps around and returns the freed slot 0. -/
theorem slot_reuse_iff_witness :
    Reachable full_table_running ∧ full_table_running.running = 0 ∧
    (∃ S1, mainfunc full_table_running = some S1 ∧
      ∃ S2, coroutine_new S1 2 0 = some (0, S2)) :=
  ⟨Reachable_run _ _, by decide,
   (mainfunc full_table_running).getD full_table_running, by rfl,
   ((slot_reuse_iff full_table_running
      ((mainfunc full_table_running).getD full_table_running) 2 0
      (Reachable_run _ _) (by decide) (by rfl)).2).mpr (fun j hj => by
        have h1 : (full_table_running.running -
            ((mainfunc full_table_running).getD full_table_running).nco) %
            ((mainfunc full_table_running).getD full_table_running).cap = 1 := by decide
        rw [h1] at hj
        have hj0 : j = 0 := by omega
        subst hj0
        have h2 : (((mainfunc full_table_running).getD full_table_running).co
            ((((mainfunc full_table_running).getD full_table_running).nco + ((0 : Nat) : Int)) %
              ((mainfunc full_table_running).getD full_table_running).cap)).isSome = true := by
          decide
        intro hn
        rw [hn] at h2
        exact absurd h2 (by decide))⟩

theorem countLive_eq_filter (co : Int → Option coroutine) (k : Nat) :
    countLive co k =
      ((List.range k).filter (fun i : Nat => (co (i : Int)).isSome)).length := by
  induction k with
  | zero => rfl
  | succ k ih =>
    rw [List.range_succ, List.filter_append, List.length_append, ← ih]
    simp only [countLive]
    cases h : (co (k : Int)).isSome <;> simp [List.filter, h]

/-- C2: in every reachable state `nco` is the number of indices `i` in
`[0, cap)` whose slot `co[i]` is not `NULL`. -/
theorem nco_eq_live_slots (S : schedule) (hR : Reachable S) :
    S.nco = (((List.range S.cap.toNat).filter
      (fun i : Nat => (S.co (i : Int)).isSome)).length : Int) := by
  rw [← countLive_eq_filter]
  exact hR.inv.2.2.1

/-- Witness of C2: after creating A and B and running A to completion, one
slot is live and `nco` is 1. -/
theorem nco_eq_live_slots_witness :
    Reachable (run (fun _ => 0) [Op.new 0 0, Op.new 1 0, Op.resume 0, Op.ret]) ∧
    (run (fun _ => 0) [Op.new 0 0, Op.new 1 0, Op.resume 0, Op.ret]).nco = 1 ∧
    (run (fun _ => 0) [Op.new 0 0, Op.new 1 0, Op.resume 0, Op.ret]).nco =
      (((List.range (run (fun _ => 0)
          [Op.new 0 0, Op.new 1 0, Op.resume 0, Op.ret]).cap.toNat).filter
        (fun i : Nat => ((run (fun _ => 0)
          [Op.new 0 0, Op.new 1 0, Op.resume 0, Op.ret]).co (i : Int)).isSome)).length : Int) :=
  ⟨Reachable_run _ _, by decide, nco_eq_live_slots _ (Reachable_run _ _)⟩

/-! ## The running coroutine -/

/-- C3: in every reachable state a stored coroutine is RUNNING if and only if
its slot is `running`; so two RUNNING slots coincide, and `running` is either
the sentinel -1 or an in-range slot that holds a RUNNING coroutine. -/
theorem running_iff_status (S : schedule) (hR : Reachable S) :
    (∀ (i : Int) (C : coroutine), 0 ≤ i → i < S.cap → S.co i = some C →
      (C.status = COROUTINE_RUNNING ↔ i = S.running)) ∧
    (∀ (i j : Int) (Ci Cj : coroutine), 0 ≤ i → i < S.cap → 0 ≤ j → j < S.cap →
      S.co i = some Ci → S.co j = some Cj →
      Ci.status = COROUTINE_RUNNING → Cj.status = COROUTINE_RUNNING → i = j) ∧
    (S.running = -1 ∨ (0 ≤ S.running ∧ S.running < S.cap ∧
      ∃ C, S.co S.running = some C ∧ C.status = COROUTINE_RUNNING)) := by
  obtain ⟨_, _, _, hrun, hcur, _⟩ := hR.inv
  refine ⟨hrun, ?_, hcur⟩
  intro i j Ci Cj hi0 hi hj0 hj hCi hCj hsi hsj
  rw [(hrun i Ci hi0 hi hCi).mp hsi, (hrun j Cj hj0 hj hCj).mp hsj]

/-- Witness of C3: with A and B created and B resumed, `running` is 1 and
slot 1 holds a RUNNING coroutine. -/
theorem running_iff_status_witness :
    Reachable (run (fun _ => 0) [Op.new 0 0, Op.new 1 0, Op.resume 1]) ∧
    (run (fun _ => 0) [Op.new 0 0, Op.new 1 0, Op.resume 1]).running = 1 ∧
    ∃ C, (run (fun _ => 0) [Op.new 0 0, Op.new 1 0, Op.resume 1]).co 1 = some C ∧
      C.status = COROUTINE_RUNNING :=
  ⟨Reachable_run _ _, by decide,
   ((running_iff_status _ (Reachable_run (fun _ => 0)
      [Op.new 0 0, Op.new 1 0, Op.resume 1])).2.2.resolve_left (by decide)).2.2⟩

/-! ## `coroutine_new` -/

theorem coroutine_new_scan_int_refines (S : schedule) (c : coroutine) :
    ∀ (k : Nat) (i : Int) (r : Int × schedule),
      coroutine_new_scan_int S c k i = some r → coroutine_new_scan S c k i = some r := by
  intro k
  induction k with
  | zero =>
    intro i r h
    simp [coroutine_new_scan_int] at h
  | succ k ih =>
    intro i r h
    simp only [coroutine_new_scan_int] at h
    split at h
    · cases h
    · split at h
      · rename_i hn
        split at h
        · cases h
        · simp only [coroutine_new_scan, hn]
          exact h
      · rename_i c0 hc0
        simp only [coroutine_new_scan, hc0]
        exact ih _ _ h

/-- Whatever the `int`-checked `coroutine_new_int` returns is what
`coroutine_new` returns. -/
theorem coroutine_new_int_refines (S : schedule) (func ud : Nat) (r : Int × schedule)
    (h : coroutine_new_int S func ud = some r) : coroutine_new S func ud = some r := by
  unfold coroutine_new_int at h
  simp only at h
  split at h
  · rename_i hfull
    split at h
    · cases h
    · split at h
      · cases h
      · simp only [coroutine_new, hfull, if_true]
        exact h
  · rename_i hfull
    simp only [coroutine_new, hfull, if_false]
    exact coroutine_new_scan_int_refines S _ _ _ _ h

/-- C5 (as stated, refuted): in the full table of `2^30` coroutines
(`nco = cap = 2^30`) the doubled capacity `2^31` is not a value of C's `int`:
the product `S->cap * 2` overflows and `coroutine_new` faults instead of
doubling `cap`. -/
theorem coroutine_new_int_overflow :
    table_of_two_pow_30.nco ≥ table_of_two_pow_30.cap ∧
    table_of_two_pow_30.cap * 2 > INT_MAX ∧
    coroutine_new_int table_of_two_pow_30 0 0 = none :=
  ⟨by decide, by decide, rfl⟩

/-- C5 (amended): in a state with `nco >= cap` whose doubled capacity `2 * cap`
and incremented count `nco + 1` are values of C's 32-bit `int`,
`coroutine_new` returns the old `cap` as id, doubles `cap`, stores the new
READY coroutine at index old `cap`, leaves every other index of the new upper
half `NULL`, keeps the lower half, and increments `nco` by one. -/
theorem coroutine_new_int_grows (S : schedule) (func ud : Nat)
    (hfull : S.nco ≥ S.cap) (hlo : INT_MIN ≤ S.cap * 2) (hhi : S.cap * 2 ≤ INT_MAX)
    (hnco : S.nco + 1 ≤ INT_MAX) :
    ∃ S1 : schedule, coroutine_new_int S func ud = some (S.cap, S1) ∧
      S1.cap = 2 * S.cap ∧
      S1.co S.cap = some (_co_new func ud) ∧
      (∀ i : Int, S.cap < i → i < 2 * S.cap → S1.co i = none) ∧
      (∀ i : Int, i < S.cap → S1.co i = S.co i) ∧
      S1.nco = S.nco + 1 ∧ S1.running = S.running ∧ S1.stack = S.stack := by
  have hr : ¬ ¬ (INT_MIN ≤ S.cap * 2 ∧ S.cap * 2 ≤ INT_MAX) := not_not.mpr ⟨hlo, hhi⟩
  have hn : ¬ ¬ (S.nco + 1 ≤ INT_MAX) := not_not.mpr hnco
  refine ⟨{ S with co := Function.update
                     (fun i => if S.cap ≤ i ∧ i < S.cap + S.cap then none else S.co i)
                     S.cap (some (_co_new func ud)),
                   cap := S.cap * 2,
                   nco := S.nco + 1 },
    by simp only [coroutine_new_int, hfull, if_true, hr, hn, if_false],
    ?_, ?_, ?_, ?_, rfl, rfl, rfl⟩
  · show S.cap * 2 = 2 * S.cap
    ring
  · show Function.update (fun i => if S.cap ≤ i ∧ i < S.cap + S.cap then none else S.co i)
      S.cap (some (_co_new func ud)) S.cap = some (_co_new func ud)
    rw [Function.update_same]
  · intro i h1 h2
    show Function.update (fun i => if S.cap ≤ i ∧ i < S.cap + S.cap then none else S.co i)
      S.cap (some (_co_new func ud)) i = none
    rw [Function.update_noteq (by omega)]
    have : S.cap ≤ i ∧ i < S.cap + S.cap := by omega
    simp only [this, and_self, if_true]
  · intro i h1
    show Function.update (fun i => if S.cap ≤ i ∧ i < S.cap + S.cap then none else S.co i)
      S.cap (some (_co_new func ud)) i = S.co i
    rw [Function.update_noteq (by omega)]
    have : ¬ (S.cap ≤ i ∧ i < S.cap + S.cap) := by omega
    simp only [this, if_false]

/-- Witness of C5 (amended): the seventeenth `coroutine_new` on a fresh
scheduler gets id 16 and doubles the table to 32 slots. -/
theorem coroutine_new_int_grows_witness :
    (run (fun _ => 0) (List.replicate 16 (Op.new 0 0))).nco ≥
      (run (fun _ => 0) (List.replicate 16 (Op.new 0 0))).cap ∧
    ∃ S1 : schedule,
      coroutine_new_int (run (fun _ => 0) (List.replicate 16 (Op.new 0 0))) 7 0 =
        some (16, S1) ∧
      S1.cap = 32 ∧ S1.nco = 17 :=
  ⟨by decide,
   (coroutine_new_int_grows (run (fun _ => 0) (List.replicate 16 (Op.new 0 0))) 7 0
      (by decide) (by decide) (by decide) (by decide)).imp
     (fun _ h => ⟨h.1, h.2.1, h.2.2.2.2.2.1⟩)⟩

/-- C7: in a state with `0 <= nco < cap` that has a `NULL` slot below `cap`,
`coroutine_new` returns `(nco + j) mod cap` for the least `j` in `[0, cap)`
whose slot `co[(nco + j) mod cap]` is `NULL`, stores the new READY coroutine
there and increments `nco`. -/
theorem coroutine_new_cyclic_first (S : schedule) (func ud : Nat)
    (h0 : 0 ≤ S.nco) (hlt : S.nco < S.cap)
    (hex : ∃ m : Int, 0 ≤ m ∧ m < S.cap ∧ S.co m = none) :
    ∃ j : Nat, (j : Int) < S.cap ∧ S.co ((S.nco + (j : Int)) % S.cap) = none ∧
      (∀ j1 : Nat, j1 < j → S.co ((S.nco + (j1 : Int)) % S.cap) ≠ none) ∧
      coroutine_new S func ud =
        some ((S.nco + (j : Int)) % S.cap,
          { S with co := Function.update S.co ((S.nco + (j : Int)) % S.cap)
                           (some (_co_new func ud)),
                   nco := S.nco + 1 }) :=
  coroutine_new_first_free S func ud h0 hlt hex

/-- Witness of C7: with A, B, C created and A run to completion (`nco = 2`,
slots 1 and 2 occupied) the scan from index 2 stops at `j = 1`, slot 3. -/
theorem coroutine_new_cyclic_first_witness :
    ∃ j : Nat, j = 1 ∧
      (coroutine_new (run (fun _ => 0)
          [Op.new 0 0, Op.new 1 0, Op.new 2 0, Op.resume 0, Op.ret]) 3 0).map Prod.fst =
        some (((run (fun _ => 0)
          [Op.new 0 0, Op.new 1 0, Op.new 2 0, Op.resume 0, Op.ret]).nco + (j : Int)) %
          (run (fun _ => 0)
          [Op.new 0 0, Op.new 1 0, Op.new 2 0, Op.resume 0, Op.ret]).cap) := by
  obtain ⟨j, _, hjn, hmin, hnew⟩ := coroutine_new_cyclic_first
    (run (fun _ => 0) [Op.new 0 0, Op.new 1 0, Op.new 2 0, Op.resume 0, Op.ret]) 3 0
    (by decide) (by decide) ⟨0, by decide, by decide, by rfl⟩
  refine ⟨j, ?_, by rw [hnew]; rfl⟩
  have h1 : ((run (fun _ => 0)
      [Op.new 0 0, Op.new 1 0, Op.new 2 0, Op.resume 0, Op.ret]).co
        (((run (fun _ => 0)
          [Op.new 0 0, Op.new 1 0, Op.new 2 0, Op.resume 0, Op.ret]).nco + ((1 : Nat) : Int)) %
          (run (fun _ => 0)
          [Op.new 0 0, Op.new 1 0, Op.new 2 0, Op.resume 0, Op.ret]).cap)) = none := by rfl
  have h0 : ((run (fun _ => 0)
      [Op.new 0 0, Op.new 1 0, Op.new 2 0, Op.resume 0, Op.ret]).co
        (((run (fun _ => 0)
          [Op.new 0 0, Op.new 1 0, Op.new 2 0, Op.resume 0, Op.ret]).nco + ((0 : Nat) : Int)) %
          (run (fun _ => 0)
          [Op.new 0 0, Op.new 1 0, Op.new 2 0, Op.resume 0, Op.ret]).cap)).isSome = true := by
    decide
  rcases Nat.lt_trichotomy j 1 with h | h | h
  · have hj0 : j = 0 := by omega
    subst hj0
    rw [hjn] at h0
    exact absurd h0 (by decide)
  · exact h
  · exact absurd h1 (hmin 1 h)

/-- C9: with `running == -1`, an in-range `id` and `co[id] == NULL`,
`coroutine_resume` returns without failing and leaves the whole state as it
was; `coroutine_status` of `id` is DEAD and `coroutine_running` is -1, before
and hence after the call. -/
theorem coroutine_resume_dead_noop (S : schedule) (id : Int)
    (hrun : S.running = -1) (h0 : 0 ≤ id) (hlt : id < S.cap) (hn : S.co id = none) :
    coroutine_resume S id = some S ∧
    coroutine_status S id = some COROUTINE_DEAD ∧
    coroutine_running S = -1 := by
  refine ⟨?_, ?_, hrun⟩
  · simp [coroutine_resume, hrun, h0, hlt, hn]
  · simp [coroutine_status, h0, hlt, hn]

/-- Witness of C9: X is created, resumed and returns at once; a second
resume of X changes nothing, X is DEAD and nothing is running. -/
theorem coroutine_resume_dead_noop_witness :
    (exec (coroutine_open (fun _ => 0)) [Op.new 0 0, Op.resume 0, Op.ret]).isSome = true ∧
    coroutine_resume (run (fun _ => 0) [Op.new 0 0, Op.resume 0, Op.ret]) 0 =
      some (run (fun _ => 0) [Op.new 0 0, Op.resume 0, Op.ret]) ∧
    coroutine_status (run (fun _ => 0) [Op.new 0 0, Op.resume 0, Op.ret]) 0 =
      some COROUTINE_DEAD ∧
    coroutine_running (run (fun _ => 0) [Op.new 0 0, Op.resume 0, Op.ret]) = -1 :=
  ⟨by decide,
   coroutine_resume_dead_noop (run (fun _ => 0) [Op.new 0 0, Op.resume 0, Op.ret]) 0
    (by decide) (by decide) (by decide) (by rfl)⟩

/-! ## Creating coroutines on a fresh scheduler -/

/-- One `coroutine_new` on a table whose live slots are exactly `0..m-1`
returns `m` and makes the live slots exactly `0..m`. -/
theorem coroutine_new_segment (S : schedule) (m : Nat) (func ud : Nat)
    (hcap : 0 < S.cap) (hn : S.nco = (m : Int)) (hle : (m : Int) ≤ S.cap)
    (hco : ∀ i : Int, 0 ≤ i → i < S.cap → ((S.co i).isSome ↔ i < (m : Int))) :
    ∃ S1 : schedule, coroutine_new S func ud = some ((m : Int), S1) ∧
      S1.nco = ((m + 1 : Nat) : Int) ∧ S1.running = S.running ∧
      (∀ i : Int, 0 ≤ i → i < S1.cap → ((S1.co i).isSome ↔ i < ((m + 1 : Nat) : Int))) ∧
      (((m : Int) < S.cap ∧ S1.cap = S.cap) ∨ ((m : Int) = S.cap ∧ S1.cap = S.cap * 2)) := by
  by_cases hlt : (m : Int) < S.cap
  · have hfree : S.co (m : Int) = none := by
      have := hco m (by omega) hlt
      cases h : S.co (m : Int) with
      | none => rfl
      | some c => rw [h] at this; simp at this
    have hidx : ((0 : Int) + ((0 : Nat) : Int) + S.nco).tmod S.cap = (m : Int) := by
      rw [hn, Int.tmod_eq_emod (by omega) (by omega)]
      simp only [Nat.cast_zero, zero_add]
      exact Int.emod_eq_of_lt (by omega) hlt
    have hfound := coroutine_new_scan_found S (_co_new func ud) S.cap.toNat 0 0
      (by omega) (by rw [hidx]; exact hfree) (fun j1 hj1 => by omega)
    rw [hidx] at hfound
    refine ⟨{ S with co := Function.update S.co (m : Int) (some (_co_new func ud)),
                     nco := S.nco + 1 }, by
      have hnf : ¬ S.cap ≤ S.nco := by omega
      simp only [coroutine_new, ge_iff_le, hnf, if_false]
      exact hfound, ?_, rfl, ?_, Or.inl ⟨hlt, rfl⟩⟩
    · show S.nco + 1 = ((m + 1 : Nat) : Int)
      push_cast; omega
    · intro i hi0 hi
      show (Function.update S.co (m : Int) (some (_co_new func ud)) i).isSome ↔ _
      by_cases him : i = (m : Int)
      · subst him
        simp
      · rw [Function.update_noteq him, hco i hi0 hi]
        push_cast; omega
  · have hm : (m : Int) = S.cap := by omega
    refine ⟨{ S with co := Function.update
                       (fun i => if S.cap ≤ i ∧ i < S.cap + S.cap then none else S.co i)
                       S.cap (some (_co_new func ud)),
                     cap := S.cap * 2,
                     nco := S.nco + 1 }, by
      have hfull : S.cap ≤ S.nco := by omega
      simp only [coroutine_new, ge_iff_le, hfull, if_true]
      rw [hm], ?_, rfl, ?_,
      Or.inr ⟨hm, rfl⟩⟩
    · show S.nco + 1 = ((m + 1 : Nat) : Int)
      push_cast; omega
    · intro i hi0 hi
      have hi2 : i < S.cap * 2 := hi
      show (Function.update (fun i => if S.cap ≤ i ∧ i < S.cap + S.cap then none else S.co i)
        S.cap (some (_co_new func ud)) i).isSome ↔ _
      by_cases him : i = S.cap
      · subst him
        simp only [Function.update_same, Option.isSome_some, true_iff]
        push_cast; omega
      · rw [Function.update_noteq him]
        by_cases hr : S.cap ≤ i ∧ i < S.cap + S.cap
        · simp only [hr, and_self, if_true, Option.isSome_none, Bool.false_eq_true, false_iff]
          push_cast; omega
        · simp only [hr, if_false]
          rw [hco i hi0 (by omega)]
          push_cast; omega

theorem two_pow_lt_imp (k k1 : Nat) (h : (16 : Int) * 2 ^ k < 16 * 2 ^ k1) : k + 1 ≤ k1 := by
  by_contra hc
  have hle : k1 ≤ k := by omega
  have : (2 : Int) ^ k1 ≤ 2 ^ k := pow_le_pow_right₀ (by norm_num) hle
  omega

theorem coroutine_new_many_segment (args : List (Nat × Nat)) :
    ∀ (S : schedule) (m k : Nat), S.cap = 16 * 2 ^ k → S.nco = (m : Int) →
      (m : Int) ≤ S.cap →
      (∀ k1 : Nat, (m : Int) ≤ 16 * 2 ^ k1 → k ≤ k1) →
      (∀ i : Int, 0 ≤ i → i < S.cap → ((S.co i).isSome ↔ i < (m : Int))) →
      ∃ S1 : schedule,
        coroutine_new_many S args =
          some ((List.range args.length).map (fun i : Nat => (m : Int) + (i : Int)), S1) ∧
        S1.nco = ((m + args.length : Nat) : Int) ∧ S1.running = S.running ∧
        (∀ i : Int, 0 ≤ i → i < S1.cap →
          ((S1.co i).isSome ↔ i < ((m + args.length : Nat) : Int))) ∧
        ∃ k2 : Nat, S1.cap = 16 * 2 ^ k2 ∧ ((m + args.length : Nat) : Int) ≤ 16 * 2 ^ k2 ∧
          ∀ k1 : Nat, ((m + args.length : Nat) : Int) ≤ 16 * 2 ^ k1 → k2 ≤ k1 := by
  induction args with
  | nil =>
    intro S m k hcap hn hle hmin hco
    exact ⟨S, by simp [coroutine_new_many], by simpa using hn, rfl, by simpa using hco,
      k, hcap, by simpa [hcap] using hle, by simpa using hmin⟩
  | cons a rest ih =>
    intro S m k hcap hn hle hmin hco
    obtain ⟨func, ud⟩ := a
    have hpos : 0 < S.cap := by
      rw [hcap]; positivity
    obtain ⟨S1, hnew, hn1, hr1, hco1, hc1⟩ := coroutine_new_segment S m func ud hpos hn hle hco
    have hstep : ∃ k2 : Nat, S1.cap = 16 * 2 ^ k2 ∧ ((m + 1 : Nat) : Int) ≤ S1.cap ∧
        ∀ k1 : Nat, ((m + 1 : Nat) : Int) ≤ 16 * 2 ^ k1 → k2 ≤ k1 := by
      rcases hc1 with ⟨hlt, he⟩ | ⟨hm, he⟩
      · refine ⟨k, by rw [he, hcap], by rw [he]; push_cast; omega, ?_⟩
        intro k1 h1
        exact hmin k1 (by push_cast at h1; omega)
      · refine ⟨k + 1, by rw [he, hcap]; ring, by rw [he]; push_cast; omega, ?_⟩
        intro k1 h1
        apply two_pow_lt_imp
        push_cast at h1
        rw [hcap] at hm
        omega
    obtain ⟨k2, hcap2, hle2, hmin2⟩ := hstep
    obtain ⟨S2, hmany, hn2, hr2, hco2, k3, hcap3, hle3, hmin3⟩ :=
      ih S1 (m + 1) k2 hcap2 hn1 hle2 hmin2 hco1
    have hlen : m + (rest.length + 1) = m + 1 + rest.length := by omega
    refine ⟨S2, ?_, by rw [List.length_cons, hlen]; exact hn2, by rw [hr2, hr1], ?_,
      k3, hcap3, by rw [List.length_cons, hlen]; exact hle3, ?_⟩
    · simp only [coroutine_new_many, hnew, hmany, List.length_cons]
      rw [List.range_succ_eq_map]
      simp only [List.map_cons, List.map_map, Nat.cast_zero, add_zero, Option.some.injEq,
        Prod.mk.injEq, List.cons.injEq, true_and, and_true]
      apply List.map_congr_left
      intro i _
      simp only [Function.comp, Nat.succ_eq_add_one]
      push_cast; ring
    · rw [List.length_cons, hlen]; exact hco2
    · rw [List.length_cons, hlen]; exact hmin3

/-- On a table whose live slots are exactly `0..m-1`, with `m + 1 <= 2^30`,
no `int` operation of `coroutine_new` overflows. -/
theorem coroutine_new_int_segment_eq (S : schedule) (m : Nat) (func ud : Nat)
    (hcap : 0 < S.cap) (hn : S.nco = (m : Int)) (hle : (m : Int) ≤ S.cap)
    (hco : ∀ i : Int, 0 ≤ i → i < S.cap → ((S.co i).isSome ↔ i < (m : Int)))
    (hb : (m : Int) + 1 ≤ 2 ^ 30) :
    coroutine_new_int S func ud = coroutine_new S func ud := by
  have hb1 : (m : Int) + 1 ≤ 1073741824 := by norm_num at hb; exact hb
  by_cases hlt : (m : Int) < S.cap
  · have hfree : S.co (m : Int) = none := by
      have := hco m (by omega) hlt
      cases h : S.co (m : Int) with
      | none => rfl
      | some c => rw [h] at this; simp at this
    have hidx : ((0 : Int) + S.nco).tmod S.cap = (m : Int) := by
      rw [hn, Int.tmod_eq_emod (by omega) (by omega), zero_add]
      exact Int.emod_eq_of_lt (by omega) hlt
    have hnf : ¬ S.nco ≥ S.cap := by omega
    have hk : S.cap.toNat = (S.cap.toNat - 1) + 1 := by omega
    have hr1 : ¬ ¬ (INT_MIN ≤ 0 + S.nco ∧ 0 + S.nco ≤ INT_MAX) := by
      simp only [INT_MIN, INT_MAX]; omega
    have hr2 : ¬ ¬ (S.nco + 1 ≤ INT_MAX) := by
      simp only [INT_MAX]; omega
    simp only [coroutine_new_int, coroutine_new, hnf, if_false]
    rw [hk]
    simp only [coroutine_new_scan_int, coroutine_new_scan, hr1, hr2, hidx, hfree, if_false]
  · have hm : (m : Int) = S.cap := by omega
    have hfull : S.nco ≥ S.cap := by omega
    have hr1 : ¬ ¬ (INT_MIN ≤ S.cap * 2 ∧ S.cap * 2 ≤ INT_MAX) := by
      simp only [INT_MIN, INT_MAX]; omega
    have hr2 : ¬ ¬ (S.nco + 1 ≤ INT_MAX) := by
      simp only [INT_MAX]; omega
    simp only [coroutine_new_int, coroutine_new, hfull, if_true, hr1, hr2, if_false]

theorem coroutine_new_many_int_eq (args : List (Nat × Nat)) :
    ∀ (S : schedule) (m : Nat), 0 < S.cap → S.nco = (m : Int) → (m : Int) ≤ S.cap →
      (∀ i : Int, 0 ≤ i → i < S.cap → ((S.co i).isSome ↔ i < (m : Int))) →
      (m : Int) + (args.length : Int) ≤ 2 ^ 30 →
      coroutine_new_many_int S args = coroutine_new_many S args := by
  induction args with
  | nil =>
    intro S m _ _ _ _ _
    rfl
  | cons a rest ih =>
    intro S m hcap hn hle hco hb
    obtain ⟨func, ud⟩ := a
    have hlen : ((List.length ((func, ud) :: rest) : Nat) : Int) = (rest.length : Int) + 1 := by
      rw [List.length_cons]; push_cast; ring
    rw [hlen] at hb
    have heq := coroutine_new_int_segment_eq S m func ud hcap hn hle hco
      (by have := Int.ofNat_nonneg rest.length; omega)
    obtain ⟨S1, hnew, hn1, _, hco1, hc1⟩ := coroutine_new_segment S m func ud hcap hn hle hco
    have hcap1 : 0 < S1.cap := by
      rcases hc1 with ⟨_, he⟩ | ⟨_, he⟩ <;> rw [he] <;> omega
    have hle1 : ((m + 1 : Nat) : Int) ≤ S1.cap := by
      push_cast
      rcases hc1 with ⟨hlt, he⟩ | ⟨hm, he⟩ <;> rw [he] <;> omega
    have hih := ih S1 (m + 1) hcap1 hn1 hle1 hco1 (by push_cast; omega)
    simp only [coroutine_new_many_int, coroutine_new_many, heq, hnew, hih]

/-- When the calls before the last one all return and the last call faults,
the whole sequence of calls faults. -/
theorem coroutine_new_many_int_last (l : List (Nat × Nat)) :
    ∀ (S S1 : schedule) (ids : List Int) (a : Nat × Nat),
      coroutine_new_many_int S l = some (ids, S1) →
      coroutine_new_int S1 a.1 a.2 = none →
      coroutine_new_many_int S (l ++ [a]) = none := by
  induction l with
  | nil =>
    intro S S1 ids a h hlast
    simp only [coroutine_new_many_int, Option.some.injEq, Prod.mk.injEq] at h
    rw [← h.2] at hlast
    obtain ⟨func, ud⟩ := a
    simp only [List.nil_append, coroutine_new_many_int, hlast]
  | cons b rest ih =>
    intro S S1 ids a h hlast
    obtain ⟨func, ud⟩ := b
    simp only [coroutine_new_many_int] at h
    split at h
    · cases h
    · rename_i id S2 hn
      split at h
      · cases h
      · rename_i ids2 S3 hrest
        simp only [Option.some.injEq, Prod.mk.injEq] at h
        have := ih S2 S1 ids2 a (by rw [hrest, h.2]) hlast
        rw [List.cons_append]
        simp only [coroutine_new_many_int, hn]
        rw [this]

/-- After `2^30` calls on a fresh scheduler the next `coroutine_new` faults. -/
theorem coroutine_new_many_int_faults (mem : Mem) (args : List (Nat × Nat)) (a : Nat × Nat)
    (hlen : (args.length : Int) = 2 ^ 30) :
    coroutine_new_many_int (coroutine_open mem) (args ++ [a]) = none := by
  have hopen : coroutine_new_many_int (coroutine_open mem) args =
      coroutine_new_many (coroutine_open mem) args :=
    coroutine_new_many_int_eq args (coroutine_open mem) 0
      (by simp [coroutine_open, DEFAULT_COROUTINE]) (by simp [coroutine_open])
      (by simp [coroutine_open, DEFAULT_COROUTINE])
      (fun i hi0 _ => by simp [coroutine_open]; omega)
      (by rw [hlen]; norm_num)
  obtain ⟨S1, hmany, hn, _, _, k, hcap, hle, hmin⟩ :=
    coroutine_new_many_segment args (coroutine_open mem) 0 0
      (by simp [coroutine_open, DEFAULT_COROUTINE]) (by simp [coroutine_open])
      (by simp [coroutine_open, DEFAULT_COROUTINE]) (fun _ _ => Nat.zero_le _)
      (fun i hi0 _ => by simp [coroutine_open]; omega)
  have hlen1 : ((0 + args.length : Nat) : Int) = 1073741824 := by
    rw [Nat.zero_add, hlen]; norm_num
  rw [hlen1] at hn hle hmin
  have hk1 : k ≤ 26 := hmin 26 (by norm_num)
  have hk2 : 26 ≤ k := by
    by_contra hc
    have h25 : k ≤ 25 := by omega
    have : (2 : Int) ^ k ≤ 2 ^ 25 := pow_le_pow_right₀ (by norm_num) h25
    have h2 : (2 : Int) ^ 25 = 33554432 := by norm_num
    omega
  have hk : k = 26 := by omega
  subst hk
  have hcapv : S1.cap = 1073741824 := by rw [hcap]; norm_num
  apply coroutine_new_many_int_last args (coroutine_open mem) S1 _ a (by rw [hopen]; exact hmany)
  have hfull : S1.nco ≥ S1.cap := by rw [hn, hcapv]
  have hov : ¬ (INT_MIN ≤ S1.cap * 2 ∧ S1.cap * 2 ≤ INT_MAX) := by
    rw [hcapv]; simp only [INT_MIN, INT_MAX]; omega
  simp only [coroutine_new_int, hfull, if_true, hov, not_false_eq_true]

/-- C6 (as stated, refuted): `2^30 + 1` calls of `coroutine_new` on a freshly
opened scheduler do not return the ids `0..2^30`: after `2^30` calls the table
is full with `cap = 2^30`, and the next call faults because `S->cap * 2`
overflows C's `int`. -/
theorem coroutine_new_many_int_overflow :
    coroutine_new_many_int (coroutine_open (fun _ => 0))
      (List.replicate (2 ^ 30) (0, 0) ++ [(0, 0)]) = none :=
  coroutine_new_many_int_faults (fun _ => 0) (List.replicate (2 ^ 30) (0, 0)) (0, 0)
    (by rw [List.length_replicate]; norm_num)

/-- C6 (amended): for every `n <= 2^30`, calling `coroutine_new` once per
element of `args` (`n` of them) on a freshly opened scheduler, without running
any coroutine, returns the ids `0, 1, ..., n-1` in that order, leaves exactly
the slots `0..n-1` non-`NULL` with `nco = n`, and leaves `cap` equal to the
least value of the form `16 * 2^k` that is at least `n`. -/
theorem coroutine_new_many_int_fresh (mem : Mem) (args : List (Nat × Nat))
    (hlen : (args.length : Int) ≤ 2 ^ 30) :
    ∃ S1 : schedule,
      coroutine_new_many_int (coroutine_open mem) args =
        some ((List.range args.length).map (fun i : Nat => (i : Int)), S1) ∧
      S1.nco = (args.length : Int) ∧ S1.running = -1 ∧
      (∀ i : Int, 0 ≤ i → i < S1.cap → ((S1.co i).isSome ↔ i < (args.length : Int))) ∧
      ∃ k : Nat, S1.cap = 16 * 2 ^ k ∧ (args.length : Int) ≤ 16 * 2 ^ k ∧
        ∀ k1 : Nat, (args.length : Int) ≤ 16 * 2 ^ k1 → k ≤ k1 := by
  have hopen : coroutine_new_many_int (coroutine_open mem) args =
      coroutine_new_many (coroutine_open mem) args :=
    coroutine_new_many_int_eq args (coroutine_open mem) 0
      (by simp [coroutine_open, DEFAULT_COROUTINE]) (by simp [coroutine_open])
      (by simp [coroutine_open, DEFAULT_COROUTINE])
      (fun i hi0 _ => by simp [coroutine_open]; omega)
      (by push_cast; omega)
  have h := coroutine_new_many_segment args (coroutine_open mem) 0 0
    (by simp [coroutine_open, DEFAULT_COROUTINE]) (by simp [coroutine_open])
    (by simp [coroutine_open, DEFAULT_COROUTINE]) (fun _ _ => Nat.zero_le _)
    (fun i hi0 _ => by simp [coroutine_open]; omega)
  rw [hopen]
  simpa using h

/-- Witness of C6 (amended) for `n = 17`: the ids are 0..15 and then 16, the
table has doubled once to 32 slots, and all 17 slots are live. -/
theorem coroutine_new_many_int_fresh_17 :
    ∃ S1 : schedule,
      coroutine_new_many_int (coroutine_open (fun _ => 0)) (List.replicate 17 (0, 0)) =
        some ([0, 1, 2, 3, 4, 5, 6, 7, 8, 9, 10, 11, 12, 13, 14, 15, 16], S1) ∧
      S1.nco = 17 ∧ S1.cap = 32 ∧
      (∀ i : Int, 0 ≤ i → i < 32 → ((S1.co i).isSome ↔ i < 17)) := by
  obtain ⟨S1, hmany, hn, _, hco, k, hcap, hle, hmin⟩ :=
    coroutine_new_many_int_fresh (fun _ => 0) (List.replicate 17 (0, 0)) (by
      rw [List.length_replicate]; norm_num)
  have hk1 : k ≤ 1 := hmin 1 (by norm_num)
  have hk : k = 1 := by
    rcases Nat.lt_or_ge k 1 with h | h
    · have : k = 0 := by omega
      subst this
      norm_num at hle
    · omega
  subst hk
  have hcap32 : S1.cap = 32 := by rw [hcap]; norm_num
  refine ⟨S1, by rw [hmany]; rfl, by simpa using hn, hcap32, ?_⟩
  intro i hi0 hi
  have := hco i hi0 (by omega)
  simpa using this

/-! ## Saving and restoring the stack -/

/-- What `_save_stack` returns when its assertion holds: the shared stack with
`dummy` initialised, and the record with `size = n`, the status kept, and a
private stack that, when present, holds the `n` saved bytes. -/
theorem save_stack_spec (stk : Mem) (C : coroutine) (n : Int) (hn : n ≤ STACK_SIZE) :
    ∃ C1 : coroutine,
      _save_stack stk C n = some (Function.update stk (STACK_SIZE - n) 0, C1) ∧
      C1.size = n ∧ C1.status = C.status ∧
      (∀ p, C1.stack = some p → ∀ k : Int, 0 ≤ k → k < n →
        p k = Function.update stk (STACK_SIZE - n) 0 (STACK_SIZE - n + k)) := by
  have hna : ¬ ¬ (n ≤ STACK_SIZE) := not_not.mpr hn
  have hmem : ∀ (q : Mem) (k : Int), 0 ≤ k → k < n →
      memcpy q 0 (Function.update stk (STACK_SIZE - n) 0) (STACK_SIZE - n) n k =
        Function.update stk (STACK_SIZE - n) 0 (STACK_SIZE - n + k) := by
    intro q k hk0 hk
    have : (0 : Int) ≤ k ∧ k < 0 + n := by omega
    simp only [memcpy, this, and_self, if_true]
    congr 1
    ring
  by_cases hcap : C.cap < n
  · simp only [_save_stack, hna, if_false, hcap, if_true]
    refine ⟨_, rfl, rfl, rfl, ?_⟩
    intro p hp k hk0 hk
    simp only [Option.some.injEq] at hp
    rw [← hp]
    exact hmem _ k hk0 hk
  · cases hs : C.stack with
    | none =>
      simp only [_save_stack, hna, if_false, hcap, hs]
      refine ⟨_, rfl, rfl, rfl, ?_⟩
      intro p hp
      cases hp
    | some q =>
      simp only [_save_stack, hna, if_false, hcap, hs]
      refine ⟨_, rfl, rfl, rfl, ?_⟩
      intro p hp k hk0 hk
      simp only [Option.some.injEq] at hp
      rw [← hp]
      exact hmem _ k hk0 hk

/-- A yield followed at once by a resume of the same id, on the shared stack
`S.stack` handed to `coroutine_yield`: both calls return, the coroutine runs
again, and every byte at an offset in `[STACK_SIZE - n, STACK_SIZE)` is what
`_save_stack` saved, that is `S.stack` with `dummy` (offset `STACK_SIZE - n`)
initialised to 0. -/
theorem yield_resume_restores (S : schedule) (C : coroutine) (addrC n : Int)
    (hr0 : 0 ≤ S.running) (hr1 : S.running < S.cap) (hC : S.co S.running = some C)
    (haddr : 0 < addrC) (hn0 : 0 < n) (hn : n ≤ STACK_SIZE) :
    ∃ S1 S2 : schedule, coroutine_yield S addrC n = some S1 ∧
      coroutine_resume S1 S.running = some S2 ∧
      S2.running = S.running ∧
      (∃ C2, S2.co S.running = some C2 ∧ C2.status = COROUTINE_RUNNING ∧ C2.size = n) ∧
      (∀ a : Int, STACK_SIZE - n ≤ a → a < STACK_SIZE → S2.stack a = S1.stack a) ∧
      (∀ a : Int, STACK_SIZE - n < a → a < STACK_SIZE → S2.stack a = S.stack a) ∧
      S2.stack (STACK_SIZE - n) = 0 := by
  obtain ⟨C1, hsave, hsize, _, hpriv⟩ := save_stack_spec S.stack C n hn
  have hy : ∃ S1 : schedule, coroutine_yield S addrC n = some S1 ∧
      S1.stack = Function.update S.stack (STACK_SIZE - n) 0 ∧ S1.running = -1 ∧
      S1.cap = S.cap ∧
      S1.co S.running = some { C1 with status := COROUTINE_SUSPEND } := by
    have h1 : ¬ ¬ (S.running ≥ 0) := not_not.mpr hr0
    have h2 : ¬ ¬ (addrC > 0) := not_not.mpr haddr
    simp only [coroutine_yield, h1, if_false, hC, h2, hsave]
    exact ⟨_, rfl, rfl, rfl, rfl, by simp only [Function.update_same]⟩
  obtain ⟨S1, hy1, hstk1, hrun1, hcap1, hco1⟩ := hy
  have hrange : ¬ ¬ (S.running ≥ 0 ∧ S.running < S1.cap) :=
    not_not.mpr ⟨hr0, by rw [hcap1]; exact hr1⟩
  have hres : ∃ S2 : schedule, coroutine_resume S1 S.running = some S2 ∧
      S2.running = S.running ∧
      (∃ C2, S2.co S.running = some C2 ∧ C2.status = COROUTINE_RUNNING ∧ C2.size = n) ∧
      (∀ a : Int, STACK_SIZE - n ≤ a → a < STACK_SIZE → S2.stack a = S1.stack a) := by
    cases hp : C1.stack with
    | none =>
      simp only [coroutine_resume, hrun1, ne_eq, not_true_eq_false, if_false, hrange, hco1, hp]
      exact ⟨_, rfl, rfl, ⟨_, Function.update_same _ _ _, rfl, hsize⟩,
        fun a _ _ => rfl⟩
    | some p =>
      simp only [coroutine_resume, hrun1, ne_eq, not_true_eq_false, if_false, hrange, hco1, hp]
      refine ⟨_, rfl, rfl, ⟨_, Function.update_same _ _ _, rfl, hsize⟩, ?_⟩
      intro a ha0 ha1
      have hin : STACK_SIZE - n ≤ a ∧ a < STACK_SIZE - n + n := by omega
      show memcpy S1.stack (STACK_SIZE - C1.size) p 0 C1.size a = S1.stack a
      rw [hsize, hstk1]
      simp only [memcpy, hin, and_self, if_true]
      rw [hpriv p hp (a - (STACK_SIZE - n) + 0) (by omega) (by omega)]
      congr 1
      ring
  obtain ⟨S2, hres2, hrun2, hC2, hstk⟩ := hres
  refine ⟨S1, S2, hy1, hres2, hrun2, hC2, hstk, ?_, ?_⟩
  · intro a ha0 ha1
    rw [hstk a (by omega) ha1, hstk1, Function.update_noteq (by omega)]
  · rw [hstk _ (le_refl _) (by omega), hstk1, Function.update_same]

/-- C10 (as stated, refuted): a running coroutine over a stack of bytes 7
yields with `n = 96` (`dummy` at offset `STACK_SIZE - 96`, the local `C` 33
bytes above it) and is resumed at once; the byte at offset `STACK_SIZE - 96`,
inside `[STACK_SIZE - n, STACK_SIZE)`, was 7 before the yield and is 0, the
value of `dummy`, afterwards. -/
theorem yield_resume_changes_dummy_byte :
    ∃ S1 S2 : schedule,
      coroutine_yield stack_of_sevens 1048513 96 = some S1 ∧
      coroutine_resume S1 0 = some S2 ∧
      STACK_SIZE - 96 = 1048480 ∧
      stack_of_sevens.stack 1048480 = 7 ∧ S2.stack 1048480 = 0 :=
  ⟨_, _, rfl, rfl, by decide, rfl, rfl⟩

/-- C10 (amended): let a coroutine run with its own live frames in the top `m`
bytes of the shared stack, and let it call `coroutine_yield`, whose frame and
that of `_save_stack` are pushed below them (`frames` is the stack once they
are in place: `STACK_SIZE - n < addrC < STACK_SIZE - m`, `n = top - &dummy`
at most `STACK_SIZE`).  Then `coroutine_yield` followed at once by
`coroutine_resume` of the same id both return, the coroutine runs again,
every byte at an offset in `[STACK_SIZE - n, STACK_SIZE)` is what it was when
`_save_stack` copied the stack, and every byte of the coroutine's own frames,
offsets `[STACK_SIZE - m, STACK_SIZE)`, is what it was just before the
call. -/
theorem yield_resume_live_frames (S : schedule) (C : coroutine) (frames : Mem)
    (addrC n m : Int)
    (hr0 : 0 ≤ S.running) (hr1 : S.running < S.cap) (hC : S.co S.running = some C)
    (hm : 0 < m) (hcaller : addrC < STACK_SIZE - m) (hdummy : STACK_SIZE - n < addrC)
    (hn : n ≤ STACK_SIZE)
    (hframes : ∀ a : Int, STACK_SIZE - m ≤ a → frames a = S.stack a) :
    ∃ S1 S2 : schedule,
      coroutine_yield { S with stack := frames } addrC n = some S1 ∧
      coroutine_resume S1 S.running = some S2 ∧
      S2.running = S.running ∧
      (∃ C2, S2.co S.running = some C2 ∧ C2.status = COROUTINE_RUNNING ∧ C2.size = n) ∧
      (∀ a : Int, STACK_SIZE - n ≤ a → a < STACK_SIZE → S2.stack a = S1.stack a) ∧
      (∀ a : Int, STACK_SIZE - m ≤ a → a < STACK_SIZE → S2.stack a = S.stack a) := by
  obtain ⟨S1, S2, hy, hres, hrun, hC2, hsaved, hopen, _⟩ :=
    yield_resume_restores { S with stack := frames } C addrC n hr0 hr1 hC
      (by omega) (by omega) hn
  refine ⟨S1, S2, hy, hres, hrun, hC2, hsaved, ?_⟩
  intro a ha0 ha1
  have h1 : S2.stack a = frames a := hopen a (by omega) ha1
  rw [h1, hframes a ha0]

/-- Witness of C10 (amended): the coroutine keeps a 1024-byte array in its top
1040 bytes; the call pushes frames below them (`C` at offset
`STACK_SIZE - 1060`, `dummy` 33 bytes lower, `n = 1093`); after the yield and
the resume every byte of the array is as it was. -/
theorem yield_resume_live_frames_witness :
    ∃ S1 S2 : schedule,
      coroutine_yield { array_on_stack with stack := frames_pushed }
        (STACK_SIZE - 1060) 1093 = some S1 ∧
      coroutine_resume S1 0 = some S2 ∧
      (∀ a : Int, STACK_SIZE - 1024 ≤ a → a < STACK_SIZE → S2.stack a = (a % 256).toNat) := by
  obtain ⟨S1, S2, hy, hr, _, _, _, hstk⟩ := yield_resume_live_frames
    array_on_stack { _co_new 0 0 with status := COROUTINE_RUNNING } frames_pushed
    (STACK_SIZE - 1060) 1093 1040
    (by decide) (by decide) (by rfl) (by decide) (by omega) (by omega) (by decide)
    (fun a ha => by
      show (if a < STACK_SIZE - 1040 then 5 else (a % 256).toNat) = (a % 256).toNat
      rw [if_neg (by omega)])
  exact ⟨S1, S2, hy, hr, fun a h0 h1 => hstk a (by omega) h1⟩

/-! ## How each operation changes the slot table -/

theorem coroutine_new_scan_result (S : schedule) (c : coroutine) :
    ∀ (k : Nat) (i id : Int) (S1 : schedule),
      coroutine_new_scan S c k i = some (id, S1) →
      S.co id = none ∧
      S1 = { S with co := Function.update S.co id (some c), nco := S.nco + 1 } := by
  intro k
  induction k with
  | zero =>
    intro i id S1 h
    simp [coroutine_new_scan] at h
  | succ k ih =>
    intro i id S1 h
    simp only [coroutine_new_scan] at h
    split at h
    · rename_i hn
      simp only [Option.some.injEq, Prod.mk.injEq] at h
      rw [← h.1, ← h.2]
      exact ⟨hn, rfl⟩
    · exact ih _ _ _ h

/-- After `coroutine_new` the returned slot holds the fresh READY record and
every other slot holds what it held or is `NULL`; the stack, `running` are
kept and `cap` does not shrink. -/
theorem coroutine_new_slots (S S1 : schedule) (func ud : Nat) (id : Int)
    (h : coroutine_new S func ud = some (id, S1)) :
    S1.co id = some (_co_new func ud) ∧
    (∀ i : Int, i ≠ id → S1.co i = S.co i ∨ (S1.co i = none ∧ S.cap ≤ i)) ∧
    S1.stack = S.stack ∧ S1.running = S.running ∧
    (S1.cap = S.cap ∨ (S1.cap = S.cap * 2 ∧ id = S.cap)) ∧
    (S.co id = none ∨ id = S.cap) := by
  unfold coroutine_new at h
  simp only at h
  split at h
  · simp only [Option.some.injEq, Prod.mk.injEq] at h
    rw [← h.1, ← h.2]
    refine ⟨by simp only [Function.update_same], ?_, rfl, rfl, Or.inr ⟨rfl, rfl⟩,
      Or.inr rfl⟩
    intro i hi
    dsimp only
    rw [Function.update_noteq hi]
    by_cases hr : S.cap ≤ i ∧ i < S.cap + S.cap
    · right
      simp only [hr, and_self, if_true, true_and]
    · left
      simp only [hr, if_false]
  · obtain ⟨hfree, hS1⟩ := coroutine_new_scan_result S _ _ _ _ _ h
    rw [hS1]
    refine ⟨by simp only [Function.update_same], ?_, rfl, rfl, Or.inl rfl, Or.inl hfree⟩
    intro i hi
    left
    show Function.update S.co id (some (_co_new func ud)) i = S.co i
    rw [Function.update_noteq hi]

/-- A successful `coroutine_resume` either changes nothing (`NULL` slot) or
turns the READY or SUSPEND record of slot `id` into a RUNNING one. -/
theorem coroutine_resume_slots (S S1 : schedule) (id : Int)
    (h : coroutine_resume S id = some S1) :
    S.running = -1 ∧ 0 ≤ id ∧ id < S.cap ∧ S1.cap = S.cap ∧
    ((S.co id = none ∧ S1 = S) ∨
     ∃ C, S.co id = some C ∧
       (C.status = COROUTINE_READY ∨ C.status = COROUTINE_SUSPEND) ∧
       S1.running = id ∧
       S1.co = Function.update S.co id (some { C with status := COROUTINE_RUNNING })) := by
  unfold coroutine_resume at h
  split at h
  · cases h
  · rename_i hrun
    split at h
    · cases h
    · rename_i hid
      simp only [ne_eq, not_not] at hrun hid
      split at h
      · rename_i hn
        simp only [Option.some.injEq] at h
        exact ⟨hrun, hid.1, hid.2, by rw [← h], Or.inl ⟨hn, h.symm⟩⟩
      · rename_i C hC
        split at h
        · rename_i hst
          simp only [Option.some.injEq] at h
          rw [← h]
          exact ⟨hrun, hid.1, hid.2, rfl, Or.inr ⟨C, hC, Or.inl hst, rfl, rfl⟩⟩
        · rename_i hst
          simp only [Option.some.injEq] at h
          rw [← h]
          exact ⟨hrun, hid.1, hid.2, rfl, Or.inr ⟨C, hC, Or.inr hst, rfl, rfl⟩⟩
        · cases h

/-- What a returning `_save_stack` did: its assertion held, `dummy` was
initialised, `size` is `n`, `cap` is the larger of the old `cap` and `n`, and
the private stack is a freshly allocated one exactly when the old `cap` was
below `n`. -/
theorem save_stack_fields (stk stk1 : Mem) (C C1 : coroutine) (n : Int)
    (h : _save_stack stk C n = some (stk1, C1)) :
    n ≤ STACK_SIZE ∧ stk1 = Function.update stk (STACK_SIZE - n) 0 ∧
    C1.size = n ∧ C1.cap = max C.cap n ∧ C1.status = C.status ∧
    C1.func = C.func ∧ C1.ud = C.ud ∧
    (C.cap < n → C1.stack ≠ none) ∧
    (¬ C.cap < n → (C1.stack = none ↔ C.stack = none)) := by
  unfold _save_stack at h
  simp only at h
  split at h
  · cases h
  · rename_i hn
    simp only [not_not] at hn
    simp only [Option.some.injEq, Prod.mk.injEq] at h
    obtain ⟨h1, h2⟩ := h
    by_cases hcap : C.cap < n
    · simp only [hcap, if_true] at h2
      rw [← h2]
      exact ⟨hn, h1.symm, rfl, by rw [max_eq_right (le_of_lt hcap)], rfl, rfl, rfl,
        fun _ => by simp, fun hc => absurd hcap hc⟩
    · simp only [hcap, if_false] at h2
      cases hs : C.stack with
      | none =>
        simp only [hs] at h2
        rw [← h2]
        exact ⟨hn, h1.symm, rfl, by rw [max_eq_left (not_lt.mp hcap)], rfl, rfl, rfl,
          fun hc => absurd hc hcap, fun _ => by simp [hs]⟩
      | some q =>
        simp only [hs] at h2
        rw [← h2]
        exact ⟨hn, h1.symm, rfl, by rw [max_eq_left (not_lt.mp hcap)], rfl, rfl, rfl,
          fun hc => absurd hc hcap, fun _ => by simp [hs]⟩

/-- A successful `coroutine_yield` ran `_save_stack` on the record of the
running slot and stored the result there as SUSPEND. -/
theorem coroutine_yield_slots (S S1 : schedule) (addrC n : Int)
    (h : coroutine_yield S addrC n = some S1) :
    0 ≤ S.running ∧ 0 < addrC ∧
    ∃ (C C1 : coroutine) (stk : Mem), S.co S.running = some C ∧
      _save_stack S.stack C n = some (stk, C1) ∧
      S1.stack = stk ∧ S1.running = -1 ∧ S1.cap = S.cap ∧ S1.nco = S.nco ∧
      S1.co = Function.update S.co S.running
        (some { C1 with status := COROUTINE_SUSPEND }) := by
  unfold coroutine_yield at h
  simp only at h
  split at h
  · cases h
  · rename_i hrun
    simp only [ge_iff_le, not_not] at hrun
    split at h
    · cases h
    · rename_i C hC
      split at h
      · cases h
      · rename_i haddr
        simp only [gt_iff_lt, not_not] at haddr
        split at h
        · cases h
        · rename_i stk C1 hsave
          simp only [Option.some.injEq] at h
          rw [← h]
          exact ⟨hrun, haddr, C, C1, stk, hC, hsave, rfl, rfl, rfl, rfl, rfl⟩

/-- A successful death sequence nulled the running slot. -/
theorem mainfunc_slots (S S1 : schedule) (h : mainfunc S = some S1) :
    (∃ C, S.co S.running = some C) ∧
    S1.co = Function.update S.co S.running none ∧
    S1.nco = S.nco - 1 ∧ S1.running = -1 ∧ S1.cap = S.cap ∧ S1.stack = S.stack := by
  unfold mainfunc at h
  simp only at h
  split at h
  · cases h
  · rename_i C hC
    simp only [Option.some.injEq] at h
    rw [← h]
    exact ⟨⟨C, hC⟩, rfl, rfl, rfl, rfl, rfl⟩

/-! ## Invariants of the stored records -/

theorem RecOK_new (func ud : Nat) : RecOK (_co_new func ud) := by
  refine ⟨le_refl _, ?_, fun _ => rfl, fun h => ?_⟩
  · show (0 : Int) ≤ STACK_SIZE
    decide
  · cases h

theorem RecOK_save (stk stk1 : Mem) (C C1 : coroutine) (n : Int) (hC : RecOK C)
    (h : _save_stack stk C n = some (stk1, C1)) :
    RecOK { C1 with status := COROUTINE_SUSPEND } := by
  obtain ⟨hn, _, hsize, hcap, _, _, _, hnew, hold⟩ := save_stack_fields stk stk1 C C1 n h
  obtain ⟨h0, h1, h2, _⟩ := hC
  refine ⟨?_, ?_, ?_, ?_⟩
  · show 0 ≤ C1.cap
    rw [hcap]; exact le_max_of_le_left h0
  · show C1.cap ≤ STACK_SIZE
    rw [hcap]; exact max_le h1 hn
  · intro hs
    have hs1 : C1.stack = none := hs
    show C1.cap = 0
    by_cases hlt : C.cap < n
    · exact absurd hs1 (hnew hlt)
    · rw [hcap, max_eq_left (not_lt.mp hlt)]
      exact h2 ((hold hlt).mp hs1)
  · intro _
    show C1.size ≤ C1.cap
    rw [hsize, hcap]; exact le_max_right _ _

/-- Every record stored in a reachable state is well formed. -/
theorem Reachable.recOK {S : schedule} (h : Reachable S) :
    ∀ (i : Int) (C : coroutine), S.co i = some C → RecOK C := by
  induction h with
  | init mem =>
    intro i C hC
    simp [coroutine_open] at hC
  | @new S S1 func ud id _ hn ih =>
    intro i C hC
    obtain ⟨hid, hother, -⟩ := coroutine_new_slots S S1 func ud id hn
    by_cases hi : i = id
    · subst hi
      rw [hid] at hC
      simp only [Option.some.injEq] at hC
      rw [← hC]; exact RecOK_new func ud
    · rcases hother i hi with h1 | ⟨h1, _⟩
      · rw [h1] at hC; exact ih i C hC
      · rw [h1] at hC; cases hC
  | @resume S S1 id _ hr ih =>
    intro i C hC
    obtain ⟨_, _, _, _, hcase⟩ := coroutine_resume_slots S S1 id hr
    rcases hcase with ⟨_, he⟩ | ⟨C0, hC0, _, _, hco⟩
    · rw [he] at hC; exact ih i C hC
    · rw [hco] at hC
      by_cases hi : i = id
      · subst hi
        simp only [Function.update_same, Option.some.injEq] at hC
        rw [← hC]
        obtain ⟨a, b, c, _⟩ := ih i C0 hC0
        exact ⟨a, b, c, fun hs => by cases hs⟩
      · rw [Function.update_noteq hi] at hC
        exact ih i C hC
  | @yield S S1 addrC n _ hy ih =>
    intro i C hC
    obtain ⟨_, _, C0, C1, stk, hC0, hsave, _, _, _, _, hco⟩ := coroutine_yield_slots S S1 addrC n hy
    rw [hco] at hC
    by_cases hi : i = S.running
    · subst hi
      simp only [Function.update_same, Option.some.injEq] at hC
      rw [← hC]
      exact RecOK_save _ _ _ _ _ (ih _ C0 hC0) hsave
    · rw [Function.update_noteq hi] at hC
      exact ih i C hC
  | @ret S S1 _ _ hm ih =>
    intro i C hC
    obtain ⟨_, hco, -⟩ := mainfunc_slots S S1 hm
    rw [hco] at hC
    by_cases hi : i = S.running
    · subst hi
      simp at hC
    · rw [Function.update_noteq hi] at hC
      exact ih i C hC
  | write stk _ ih => exact ih

/-- In a run whose yields all measure a positive live length, suspended
records keep a positive saved size. -/
theorem exec_size_pos (ops : List Op) :
    ∀ (S S1 : schedule),
      (∀ (i : Int) (C : coroutine), S.co i = some C →
        C.status = COROUTINE_SUSPEND → 0 < C.size) →
      (∀ addrC n : Int, Op.yield addrC n ∈ ops → 0 < n) →
      exec S ops = some S1 →
      ∀ (i : Int) (C : coroutine), S1.co i = some C →
        C.status = COROUTINE_SUSPEND → 0 < C.size := by
  induction ops with
  | nil =>
    intro S S1 hS _ h
    simp only [exec, Option.some.injEq] at h
    rw [← h]; exact hS
  | cons op ops ih =>
    intro S S1 hS hpos h
    have hpos1 : ∀ addrC n : Int, Op.yield addrC n ∈ ops → 0 < n :=
      fun a n hm => hpos a n (List.mem_cons_of_mem _ hm)
    cases op with
    | new func ud =>
      simp only [exec] at h
      split at h
      · cases h
      · rename_i id S2 hn
        refine ih S2 S1 ?_ hpos1 h
        intro i C hC hs
        obtain ⟨hid, hother, -⟩ := coroutine_new_slots S S2 func ud id hn
        by_cases hi : i = id
        · subst hi
          rw [hid] at hC
          simp only [Option.some.injEq] at hC
          rw [← hC] at hs
          cases hs
        · rcases hother i hi with h1 | ⟨h1, _⟩
          · rw [h1] at hC; exact hS i C hC hs
          · rw [h1] at hC; cases hC
    | resume id =>
      simp only [exec] at h
      split at h
      · cases h
      · rename_i S2 hr
        refine ih S2 S1 ?_ hpos1 h
        intro i C hC hs
        obtain ⟨_, _, _, _, hcase⟩ := coroutine_resume_slots S S2 id hr
        rcases hcase with ⟨_, he⟩ | ⟨C0, hC0, _, _, hco⟩
        · rw [he] at hC; exact hS i C hC hs
        · rw [hco] at hC
          by_cases hi : i = id
          · subst hi
            simp only [Function.update_same, Option.some.injEq] at hC
            rw [← hC] at hs
            cases hs
          · rw [Function.update_noteq hi] at hC
            exact hS i C hC hs
    | yield addrC n =>
      simp only [exec] at h
      split at h
      · cases h
      · rename_i S2 hy
        refine ih S2 S1 ?_ hpos1 h
        intro i C hC hs
        obtain ⟨_, _, C0, C1, stk, hC0, hsave, _, _, _, _, hco⟩ :=
          coroutine_yield_slots S S2 addrC n hy
        rw [hco] at hC
        by_cases hi : i = S.running
        · subst hi
          simp only [Function.update_same, Option.some.injEq] at hC
          rw [← hC]
          show 0 < C1.size
          rw [(save_stack_fields _ _ _ _ _ hsave).2.2.1]
          exact hpos addrC n (List.mem_cons_self _ _)
        · rw [Function.update_noteq hi] at hC
          exact hS i C hC hs
    | ret =>
      simp only [exec] at h
      split at h
      · split at h
        · cases h
        · rename_i S2 hm
          refine ih S2 S1 ?_ hpos1 h
          intro i C hC hs
          obtain ⟨_, hco, -⟩ := mainfunc_slots S S2 hm
          rw [hco] at hC
          by_cases hi : i = S.running
          · subst hi
            simp at hC
          · rw [Function.update_noteq hi] at hC
            exact hS i C hC hs
      · cases h
    | write stk =>
      simp only [exec] at h
      exact ih { S with stack := stk } S1 hS hpos1 h

/-- C11: in every state reached from `coroutine_open` by a run in which each
yield's live length `n = top - &dummy` is positive, every stored coroutine
with status SUSPEND satisfies `0 < size <= cap <= STACK_SIZE`. -/
theorem suspended_size_bounds (mem : Mem) (ops : List Op) (S : schedule)
    (hpos : ∀ addrC n : Int, Op.yield addrC n ∈ ops → 0 < n)
    (hex : exec (coroutine_open mem) ops = some S)
    (i : Int) (C : coroutine) (hC : S.co i = some C)
    (hs : C.status = COROUTINE_SUSPEND) :
    0 < C.size ∧ C.size ≤ C.cap ∧ C.cap ≤ STACK_SIZE := by
  have hR : Reachable S := Reachable_exec ops (Reachable.init mem) hex
  obtain ⟨_, h1, _, h3⟩ := hR.recOK i C hC
  refine ⟨?_, h3 hs, h1⟩
  exact exec_size_pos ops (coroutine_open mem) S
    (fun i C hC => by simp [coroutine_open] at hC) hpos hex i C hC hs

/-- Witness of C11: A yields with 64 live bytes, is resumed and yields again
with 40; its record is SUSPEND with `size = 40` and `cap = 64`. -/
theorem suspended_size_bounds_witness :
    ∃ C : coroutine,
      (run (fun _ => 0) [Op.new 0 0, Op.resume 0, Op.yield 1048545 64, Op.resume 0,
        Op.yield 1048569 40]).co 0 = some C ∧
      C.status = COROUTINE_SUSPEND ∧ C.size = 40 ∧ C.cap = 64 ∧
      0 < C.size ∧ C.size ≤ C.cap ∧ C.cap ≤ STACK_SIZE :=
  ⟨_, rfl, rfl, rfl, rfl,
   suspended_size_bounds (fun _ => 0)
     [Op.new 0 0, Op.resume 0, Op.yield 1048545 64, Op.resume 0, Op.yield 1048569 40]
     (run (fun _ => 0) [Op.new 0 0, Op.resume 0, Op.yield 1048545 64, Op.resume 0,
        Op.yield 1048569 40])
     (fun a n hm => by
       simp only [List.mem_cons, List.mem_singleton, Op.yield.injEq, List.not_mem_nil,
         or_false, false_or, reduceCtorEq] at hm
       omega)
     rfl 0 _ rfl rfl⟩

/-! ## Single steps -/

theorem coroutine_status_some (S : schedule) (id : Int) (C : coroutine)
    (h0 : 0 ≤ id) (h1 : id < S.cap) (hC : S.co id = some C) :
    coroutine_status S id = some C.status := by
  simp [coroutine_status, h0, h1, hC]

theorem coroutine_status_none (S : schedule) (id : Int)
    (h0 : 0 ≤ id) (h1 : id < S.cap) (hC : S.co id = none) :
    coroutine_status S id = some COROUTINE_DEAD := by
  simp [coroutine_status, h0, h1, hC]

/-- From the main context `coroutine_resume` switches into a READY or SUSPEND
coroutine: it becomes the running one and its record only changes status. -/
theorem coroutine_resume_switch (S : schedule) (id : Int) (C : coroutine)
    (hrun : S.running = -1) (h0 : 0 ≤ id) (h1 : id < S.cap) (hC : S.co id = some C)
    (hs : C.status = COROUTINE_READY ∨ C.status = COROUTINE_SUSPEND) :
    ∃ S1 : schedule, coroutine_resume S id = some S1 ∧ S1.running = id ∧
      S1.cap = S.cap ∧ S1.nco = S.nco ∧
      S1.co = Function.update S.co id (some { C with status := COROUTINE_RUNNING }) ∧
      (C.status = COROUTINE_READY → S1.stack = S.stack) := by
  have hrange : ¬ ¬ (id ≥ 0 ∧ id < S.cap) := not_not.mpr ⟨h0, h1⟩
  rcases hs with hs | hs
  · simp only [coroutine_resume, hrun, ne_eq, not_true_eq_false, if_false, hrange, hC, hs]
    exact ⟨_, rfl, rfl, rfl, rfl, rfl, fun _ => rfl⟩
  · simp only [coroutine_resume, hrun, ne_eq, not_true_eq_false, if_false, hrange, hC, hs]
    refine ⟨_, rfl, rfl, rfl, rfl, rfl, fun h => ?_⟩
    cases h

/-- With a coroutine running, the local `C` above the stack base and
`n <= STACK_SIZE`, `coroutine_yield` returns: the record of the running slot
becomes SUSPEND with `size = n` and `cap = max cap n`, and nothing runs. -/
theorem coroutine_yield_switch (S : schedule) (C : coroutine) (addrC n : Int)
    (h0 : 0 ≤ S.running) (hC : S.co S.running = some C)
    (haddr : 0 < addrC) (hn : n ≤ STACK_SIZE) :
    ∃ (S1 : schedule) (C1 : coroutine), coroutine_yield S addrC n = some S1 ∧
      S1.running = -1 ∧ S1.cap = S.cap ∧ S1.nco = S.nco ∧
      S1.stack = Function.update S.stack (STACK_SIZE - n) 0 ∧
      S1.co = Function.update S.co S.running (some C1) ∧
      C1.status = COROUTINE_SUSPEND ∧ C1.size = n ∧ C1.cap = max C.cap n ∧
      C1.func = C.func ∧ C1.ud = C.ud ∧
      (∀ p, C1.stack = some p → ∀ k : Int, 0 ≤ k → k < n →
        p k = Function.update S.stack (STACK_SIZE - n) 0 (STACK_SIZE - n + k)) := by
  obtain ⟨C2, hsave, _, _, hpriv⟩ := save_stack_spec S.stack C n hn
  obtain ⟨_, _, hsize, hcap, _, hf, hu, _, _⟩ := save_stack_fields _ _ _ _ _ hsave
  have h1 : ¬ ¬ (S.running ≥ 0) := not_not.mpr h0
  have h2 : ¬ ¬ (addrC > 0) := not_not.mpr haddr
  simp only [coroutine_yield, h1, if_false, hC, h2, hsave]
  exact ⟨_, _, rfl, rfl, rfl, rfl, rfl, rfl, rfl, hsize, hcap, hf, hu, hpriv⟩

/-- The death sequence on a state whose running slot holds a record. -/
theorem mainfunc_dies (S : schedule) (C : coroutine) (hC : S.co S.running = some C) :
    ∃ S1 : schedule, mainfunc S = some S1 ∧ S1.co S.running = none ∧
      S1.nco = S.nco - 1 ∧ S1.running = -1 ∧ S1.cap = S.cap ∧
      (∀ i : Int, i ≠ S.running → S1.co i = S.co i) ∧ S1.stack = S.stack := by
  simp only [mainfunc, hC]
  refine ⟨_, rfl, ?_, rfl, rfl, rfl, ?_, rfl⟩
  · simp only [Function.update_same]
  · intro i hi
    simp only [Function.update_noteq hi]

/-! ## Life cycle -/

/-- C13: `coroutine_status` fails exactly when `id` is outside `[0, cap)`;
for an in-range `id` it returns DEAD when `co[id]` is `NULL` and the stored
status otherwise (it only reads the state); and right after the function of
the running coroutine of a reachable state has returned, the status of its id
is DEAD. -/
theorem coroutine_status_spec (S : schedule) (id : Int) :
    (coroutine_status S id = none ↔ ¬ (0 ≤ id ∧ id < S.cap)) ∧
    (0 ≤ id → id < S.cap → S.co id = none →
      coroutine_status S id = some COROUTINE_DEAD) ∧
    (∀ C : coroutine, 0 ≤ id → id < S.cap → S.co id = some C →
      coroutine_status S id = some C.status) ∧
    (Reachable S → 0 ≤ S.running → ∀ S1 : schedule, mainfunc S = some S1 →
      coroutine_status S1 S.running = some COROUTINE_DEAD) := by
  refine ⟨?_, coroutine_status_none S id, fun C => coroutine_status_some S id C, ?_⟩
  · by_cases hr : 0 ≤ id ∧ id < S.cap
    · cases hC : S.co id with
      | none => simp [coroutine_status, hr, hC]
      | some C => simp [coroutine_status, hr, hC]
    · have hr1 : ¬ (id ≥ 0 ∧ id < S.cap) := hr
      simp [coroutine_status, hr1, hr]
  · intro hR h0 S1 hm
    obtain ⟨_, hco, _, _, hcap, _⟩ := mainfunc_slots S S1 hm
    have hlt : S.running < S.cap := by
      rcases hR.inv.2.2.2.2.1 with h | ⟨_, h, _⟩ <;> omega
    exact coroutine_status_none S1 S.running h0 (by rw [hcap]; exact hlt)
      (by rw [hco, Function.update_same])

/-- Witness of C13: after X was created, resumed and has returned, its status
is DEAD; an id of 16 is outside the table and the query fails. -/
theorem coroutine_status_spec_witness :
    coroutine_status (run (fun _ => 0) [Op.new 0 0, Op.resume 0, Op.ret]) 0 =
      some COROUTINE_DEAD ∧
    coroutine_status (run (fun _ => 0) [Op.new 0 0, Op.resume 0, Op.ret]) 16 = none ∧
    coroutine_status (run (fun _ => 0) [Op.new 0 0, Op.resume 0]) 0 =
      some COROUTINE_RUNNING :=
  ⟨(coroutine_status_spec (run (fun _ => 0) [Op.new 0 0, Op.resume 0]) 0).2.2.2
      (Reachable_run _ _) (by decide) _ rfl,
   (coroutine_status_spec (run (fun _ => 0) [Op.new 0 0, Op.resume 0, Op.ret]) 16).1.mpr
      (by decide),
   (coroutine_status_spec (run (fun _ => 0) [Op.new 0 0, Op.resume 0]) 0).2.2.1
      { _co_new 0 0 with status := COROUTINE_RUNNING } (by decide) (by decide) rfl⟩

/-! ## The death sequence -/

/-- C14: when the function of the running coroutine `r` (a non-`NULL` slot)
returns, the death sequence yields a state with `co[r] == NULL`, `nco`
decreased by exactly one, `running == -1`, `cap` unchanged, every slot other
than `r` unchanged, and the shared stack unchanged. -/
theorem mainfunc_death_sequence (S : schedule) (C : coroutine)
    (hC : S.co S.running = some C) :
    ∃ S1 : schedule, mainfunc S = some S1 ∧ S1.co S.running = none ∧
      S1.nco = S.nco - 1 ∧ S1.running = -1 ∧ S1.cap = S.cap ∧
      (∀ i : Int, i ≠ S.running → S1.co i = S.co i) ∧ S1.stack = S.stack :=
  mainfunc_dies S C hC

/-- Witness of C14: A and B exist and B runs; when B's function returns slot 1
is `NULL`, `nco` drops from 2 to 1 and A's slot is untouched. -/
theorem mainfunc_death_sequence_witness :
    ∃ S1 : schedule,
      mainfunc (run (fun _ => 0) [Op.new 0 0, Op.new 1 0, Op.resume 1]) = some S1 ∧
      S1.co 1 = none ∧ S1.nco = 1 ∧ S1.running = -1 ∧ S1.cap = 16 ∧
      S1.co 0 = some (_co_new 0 0) := by
  obtain ⟨S1, h1, h2, h3, h4, h5, h6, _⟩ := mainfunc_death_sequence
    (run (fun _ => 0) [Op.new 0 0, Op.new 1 0, Op.resume 1])
    { _co_new 1 0 with status := COROUTINE_RUNNING } rfl
  exact ⟨S1, h1, h2, h3, h4, h5, by rw [h6 0 (by decide)]; rfl⟩

/-! ## Private capacity as a high-water mark -/

/-- Along a run that records the yielded lengths, the private capacity of
every stored record is the largest length recorded for its slot (0 when the
list is empty). -/
theorem exec_hist_cap (ops : List Op) :
    ∀ (S : schedule) (h : Int → List Int) (S1 : schedule) (h1 : Int → List Int),
      (∀ (i : Int) (C : coroutine), S.co i = some C → C.cap = (h i).foldr max 0) →
      exec_hist S h ops = some (S1, h1) →
      ∀ (i : Int) (C : coroutine), S1.co i = some C → C.cap = (h1 i).foldr max 0 := by
  induction ops with
  | nil =>
    intro S h S1 h1 hS hex
    simp only [exec_hist, Option.some.injEq, Prod.mk.injEq] at hex
    rw [← hex.1, ← hex.2]; exact hS
  | cons op ops ih =>
    intro S h S1 h1 hS hex
    cases op with
    | new func ud =>
      simp only [exec_hist] at hex
      split at hex
      · cases hex
      · rename_i id S2 hn
        refine ih S2 _ S1 h1 ?_ hex
        intro i C hC
        obtain ⟨hid, hother, -⟩ := coroutine_new_slots S S2 func ud id hn
        by_cases hi : i = id
        · subst hi
          rw [hid] at hC
          simp only [Option.some.injEq] at hC
          rw [← hC, Function.update_same]
          rfl
        · rw [Function.update_noteq hi]
          rcases hother i hi with h2 | ⟨h2, _⟩
          · rw [h2] at hC; exact hS i C hC
          · rw [h2] at hC; cases hC
    | resume id =>
      simp only [exec_hist] at hex
      split at hex
      · cases hex
      · rename_i S2 hr
        refine ih S2 h S1 h1 ?_ hex
        intro i C hC
        obtain ⟨_, _, _, _, hcase⟩ := coroutine_resume_slots S S2 id hr
        rcases hcase with ⟨_, he⟩ | ⟨C0, hC0, _, _, hco⟩
        · rw [he] at hC; exact hS i C hC
        · rw [hco] at hC
          by_cases hi : i = id
          · subst hi
            simp only [Function.update_same, Option.some.injEq] at hC
            rw [← hC]
            exact hS i C0 hC0
          · rw [Function.update_noteq hi] at hC
            exact hS i C hC
    | yield addrC n =>
      simp only [exec_hist] at hex
      split at hex
      · cases hex
      · rename_i S2 hy
        refine ih S2 _ S1 h1 ?_ hex
        intro i C hC
        obtain ⟨_, _, C0, C1, stk, hC0, hsave, _, _, _, _, hco⟩ :=
          coroutine_yield_slots S S2 addrC n hy
        rw [hco] at hC
        by_cases hi : i = S.running
        · subst hi
          simp only [Function.update_same, Option.some.injEq] at hC
          rw [← hC, Function.update_same]
          show C1.cap = max n ((h S.running).foldr max 0)
          rw [(save_stack_fields _ _ _ _ _ hsave).2.2.2.1, hS _ C0 hC0, max_comm]
        · rw [Function.update_noteq hi] at hC
          rw [Function.update_noteq hi]
          exact hS i C hC
    | ret =>
      simp only [exec_hist] at hex
      split at hex
      · split at hex
        · cases hex
        · rename_i S2 hm
          refine ih S2 h S1 h1 ?_ hex
          intro i C hC
          obtain ⟨_, hco, -⟩ := mainfunc_slots S S2 hm
          rw [hco] at hC
          by_cases hi : i = S.running
          · subst hi
            simp at hC
          · rw [Function.update_noteq hi] at hC
            exact hS i C hC
      · cases hex
    | write stk =>
      simp only [exec_hist] at hex
      exact ih { S with stack := stk } h S1 h1 hS hex

/-- C15: a yield of the running coroutine with private capacity `c` and live
length `n <= STACK_SIZE` returns with `size == n` and `cap == max c n`: the
capacity becomes exactly `n` when `n > c` and is kept when `n <= c`.  Over any
run from `coroutine_open`, the capacity of a stored coroutine is the largest
live length it has yielded with (0 while it has not yielded). -/
theorem yield_size_cap (S : schedule) (C : coroutine) (addrC n : Int)
    (h0 : 0 ≤ S.running) (hC : S.co S.running = some C)
    (haddr : 0 < addrC) (hn : n ≤ STACK_SIZE) :
    (∃ (S1 : schedule) (C1 : coroutine), coroutine_yield S addrC n = some S1 ∧
      S1.co S.running = some C1 ∧ C1.size = n ∧ C1.cap = max C.cap n ∧
      (C.cap < n → C1.cap = n) ∧ (n ≤ C.cap → C1.cap = C.cap)) ∧
    (∀ (mem : Mem) (ops : List Op) (T : schedule) (h : Int → List Int),
      exec_hist (coroutine_open mem) (fun _ => []) ops = some (T, h) →
      ∀ (i : Int) (D : coroutine), T.co i = some D → D.cap = (h i).foldr max 0) := by
  constructor
  · obtain ⟨S1, C1, hy, _, _, _, _, hco, _, hsize, hcap, _⟩ :=
      coroutine_yield_switch S C addrC n h0 hC haddr hn
    refine ⟨S1, C1, hy, by rw [hco, Function.update_same], hsize, hcap, ?_, ?_⟩
    · intro hlt
      rw [hcap, max_eq_right (le_of_lt hlt)]
    · intro hle
      rw [hcap, max_eq_left hle]
  · intro mem ops T h hex
    exact exec_hist_cap ops (coroutine_open mem) (fun _ => []) T h
      (fun i C hC => by simp [coroutine_open] at hC) hex

/-- Witness of C15: A yields with 64 live bytes and then with 40; the second
yield keeps `cap = 64` with `size = 40`, and 64 is the largest of the recorded
lengths `[40, 64]`. -/
theorem yield_size_cap_witness :
    (∃ (S1 : schedule) (C1 : coroutine),
      coroutine_yield (run (fun _ => 0)
        [Op.new 0 0, Op.resume 0, Op.yield 1048545 64, Op.resume 0]) 1048569 40 = some S1 ∧
      S1.co 0 = some C1 ∧ C1.size = 40 ∧ C1.cap = 64) ∧
    (∃ (T : schedule) (h : Int → List Int) (D : coroutine),
      exec_hist (coroutine_open (fun _ => 0)) (fun _ => [])
        [Op.new 0 0, Op.resume 0, Op.yield 1048545 64, Op.resume 0, Op.yield 1048569 40] =
        some (T, h) ∧
      h 0 = [40, 64] ∧ T.co 0 = some D ∧ D.cap = (h 0).foldr max 0 ∧ D.cap = 64) := by
  have hw := yield_size_cap
    (run (fun _ => 0) [Op.new 0 0, Op.resume 0, Op.yield 1048545 64, Op.resume 0])
    (((run (fun _ => 0) [Op.new 0 0, Op.resume 0, Op.yield 1048545 64, Op.resume 0]).co 0).getD
      (_co_new 0 0))
    1048569 40 (by decide) rfl (by decide) (by decide)
  obtain ⟨⟨S1, C1, h1, h2, h3, h4, _⟩, hlife⟩ := hw
  refine ⟨⟨S1, C1, h1, h2, h3, by rw [h4]; rfl⟩, _, _, _, rfl, rfl, rfl, ?_, rfl⟩
  exact hlife (fun _ => 0)
    [Op.new 0 0, Op.resume 0, Op.yield 1048545 64, Op.resume 0, Op.yield 1048569 40]
    _ _ rfl 0 _ rfl

/-! ## Fatal conditions -/

/-- C16: `coroutine_resume` fails if and only if `running != -1`, or `id` is
outside `[0, cap)`, or the slot is non-`NULL` with a status that is neither
READY nor SUSPEND; in every other case it returns. -/
theorem coroutine_resume_fatal_iff (S : schedule) (id : Int) :
    coroutine_resume S id = none ↔
      (S.running ≠ -1 ∨ ¬ (0 ≤ id ∧ id < S.cap) ∨
        ∃ C : coroutine, S.co id = some C ∧
          C.status ≠ COROUTINE_READY ∧ C.status ≠ COROUTINE_SUSPEND) := by
  by_cases hrun : S.running = -1
  · by_cases hid : 0 ≤ id ∧ id < S.cap
    · have hid1 : ¬ ¬ (id ≥ 0 ∧ id < S.cap) := not_not.mpr hid
      cases hC : S.co id with
      | none =>
        have hv : coroutine_resume S id = some S := by
          simp only [coroutine_resume, hrun, ne_eq, not_true_eq_false, if_false, hid1, hC]
        rw [hv]
        refine ⟨fun h => (by cases h), fun h => ?_⟩
        rcases h with h | h | ⟨C, h, _⟩
        · exact absurd hrun h
        · exact absurd hid h
        · cases h
      | some C =>
        cases hs : C.status with
        | COROUTINE_DEAD =>
          have hv : coroutine_resume S id = none := by
            simp only [coroutine_resume, hrun, ne_eq, not_true_eq_false, if_false, hid1, hC, hs]
          rw [hv]
          exact ⟨fun _ => Or.inr (Or.inr ⟨C, rfl, by simp [hs], by simp [hs]⟩), fun _ => rfl⟩
        | COROUTINE_READY =>
          have hv : ∃ S1, coroutine_resume S id = some S1 := by
            simp only [coroutine_resume, hrun, ne_eq, not_true_eq_false, if_false, hid1, hC, hs]
            exact ⟨_, rfl⟩
          obtain ⟨S1, hv⟩ := hv
          rw [hv]
          refine ⟨fun h => (by cases h), fun h => ?_⟩
          rcases h with h | h | ⟨D, h, h1, _⟩
          · exact absurd hrun h
          · exact absurd hid h
          · simp only [Option.some.injEq] at h
            rw [← h] at h1
            exact absurd hs h1
        | COROUTINE_RUNNING =>
          have hv : coroutine_resume S id = none := by
            simp only [coroutine_resume, hrun, ne_eq, not_true_eq_false, if_false, hid1, hC, hs]
          rw [hv]
          exact ⟨fun _ => Or.inr (Or.inr ⟨C, rfl, by simp [hs], by simp [hs]⟩), fun _ => rfl⟩
        | COROUTINE_SUSPEND =>
          have hv : ∃ S1, coroutine_resume S id = some S1 := by
            simp only [coroutine_resume, hrun, ne_eq, not_true_eq_false, if_false, hid1, hC, hs]
            exact ⟨_, rfl⟩
          obtain ⟨S1, hv⟩ := hv
          rw [hv]
          refine ⟨fun h => (by cases h), fun h => ?_⟩
          rcases h with h | h | ⟨D, h, _, h2⟩
          · exact absurd hrun h
          · exact absurd hid h
          · simp only [Option.some.injEq] at h
            rw [← h] at h2
            exact absurd hs h2
    · have hid1 : ¬ (id ≥ 0 ∧ id < S.cap) := hid
      have hv : coroutine_resume S id = none := by
        simp only [coroutine_resume, hrun, ne_eq, not_true_eq_false, if_false, hid1,
          not_false_eq_true, if_true]
      exact ⟨fun _ => Or.inr (Or.inl hid), fun _ => hv⟩
  · have hv : coroutine_resume S id = none := by
      simp only [coroutine_resume, ne_eq, hrun, not_false_eq_true, if_true]
    exact ⟨fun _ => Or.inl hrun, fun _ => hv⟩

/-- The exact failure condition of `coroutine_yield` in terms of its two
measurements: it fails if and only if no coroutine is running, or the running
slot is `NULL`, or its local `C` does not lie above the base of the shared
stack, or the live length `n = top - &dummy` exceeds `STACK_SIZE`. -/
theorem coroutine_yield_fatal_iff (S : schedule) (addrC n : Int) :
    coroutine_yield S addrC n = none ↔
      (S.running < 0 ∨ S.co S.running = none ∨ addrC ≤ 0 ∨ STACK_SIZE < n) := by
  by_cases hrun : 0 ≤ S.running
  · have h1 : ¬ ¬ (S.running ≥ 0) := not_not.mpr hrun
    cases hC : S.co S.running with
    | none =>
      have hv : coroutine_yield S addrC n = none := by
        simp only [coroutine_yield, h1, if_false, hC]
      exact ⟨fun _ => Or.inr (Or.inl rfl), fun _ => hv⟩
    | some C =>
      by_cases haddr : 0 < addrC
      · have h2 : ¬ ¬ (addrC > 0) := not_not.mpr haddr
        by_cases hn : n ≤ STACK_SIZE
        · obtain ⟨S1, _, hy, _⟩ := coroutine_yield_switch S C addrC n hrun hC haddr hn
          rw [hy]
          refine ⟨fun h => (by cases h), fun h => ?_⟩
          rcases h with h | h | h | h
          · omega
          · cases h
          · omega
          · omega
        · have h3 : _save_stack S.stack C n = none := by
            simp only [_save_stack, hn, not_false_eq_true, if_true]
          have hv : coroutine_yield S addrC n = none := by
            simp only [coroutine_yield, h1, if_false, hC, h2, h3]
          exact ⟨fun _ => Or.inr (Or.inr (Or.inr (not_le.mp hn))), fun _ => hv⟩
      · have h2 : ¬ (addrC > 0) := haddr
        have hv : coroutine_yield S addrC n = none := by
          simp only [coroutine_yield, h1, if_false, hC, h2, not_false_eq_true, if_true]
        exact ⟨fun _ => Or.inr (Or.inr (Or.inl (not_lt.mp haddr))), fun _ => hv⟩
  · have h1 : ¬ (S.running ≥ 0) := hrun
    have hv : coroutine_yield S addrC n = none := by
      simp only [coroutine_yield, h1, not_false_eq_true, if_true]
    exact ⟨fun _ => Or.inl (not_le.mp hrun), fun _ => hv⟩

/-- C17: `coroutine_yield` fails whenever no coroutine is running
(`running == -1`) and whenever the live length `n = top - &dummy` exceeds
`STACK_SIZE`; with `dummy` below the local `C`, as in the program
(`STACK_SIZE - n < addrC`), it returns when a coroutine is running and
`n <= STACK_SIZE`.  In a reachable state it therefore fails exactly when
`running == -1` or `n > STACK_SIZE`. -/
theorem coroutine_yield_fatal_cases (S : schedule) (addrC n : Int) :
    (S.running = -1 → coroutine_yield S addrC n = none) ∧
    (STACK_SIZE < n → coroutine_yield S addrC n = none) ∧
    (STACK_SIZE - n < addrC → 0 ≤ S.running → S.co S.running ≠ none →
      n ≤ STACK_SIZE → ∃ S1 : schedule, coroutine_yield S addrC n = some S1) ∧
    (Reachable S → STACK_SIZE - n < addrC →
      (coroutine_yield S addrC n = none ↔ (S.running = -1 ∨ STACK_SIZE < n))) := by
  have hiff := coroutine_yield_fatal_iff S addrC n
  refine ⟨fun h => hiff.mpr (Or.inl (by omega)),
    fun h => hiff.mpr (Or.inr (Or.inr (Or.inr h))), ?_, ?_⟩
  · intro hlay hrun hco hn
    cases hy : coroutine_yield S addrC n with
    | some S1 => exact ⟨S1, rfl⟩
    | none =>
      rcases hiff.mp hy with h | h | h | h
      · omega
      · exact absurd h hco
      · omega
      · omega
  · intro hR hlay
    constructor
    · intro hy
      rcases hiff.mp hy with h | h | h | h
      · rcases hR.inv.2.2.2.2.1 with h1 | ⟨h1, _⟩
        · exact Or.inl h1
        · omega
      · rcases hR.inv.2.2.2.2.1 with h1 | ⟨_, _, C, hC, _⟩
        · exact Or.inl h1
        · rw [hC] at h; cases h
      · exact Or.inr (by omega)
      · exact Or.inr h
    · intro h
      rcases h with h | h
      · exact hiff.mpr (Or.inl (by omega))
      · exact hiff.mpr (Or.inr (Or.inr (Or.inr h)))

/-- Witness of C17: with a coroutine running, `n = 64` and `C` 33 bytes above
`dummy` the yield returns; with nothing running it fails; with
`n = STACK_SIZE + 1` it fails. -/
theorem coroutine_yield_fatal_cases_witness :
    (∃ S1 : schedule,
      coroutine_yield (run (fun _ => 0) [Op.new 0 0, Op.resume 0]) 1048545 64 = some S1) ∧
    coroutine_yield (run (fun _ => 0) [Op.new 0 0]) 1048545 64 = none ∧
    coroutine_yield (run (fun _ => 0) [Op.new 0 0, Op.resume 0]) 32 (STACK_SIZE + 1) = none :=
  ⟨(coroutine_yield_fatal_cases (run (fun _ => 0) [Op.new 0 0, Op.resume 0]) 1048545 64).2.2.1
      (by decide) (by decide) (fun h => by cases h) (by decide),
   (coroutine_yield_fatal_cases (run (fun _ => 0) [Op.new 0 0]) 1048545 64).1 (by decide),
   (coroutine_yield_fatal_cases (run (fun _ => 0) [Op.new 0 0, Op.resume 0]) 32
      (STACK_SIZE + 1)).2.1 (by decide)⟩

/-! ## Passing the scheduler handle to `mainfunc` -/

/-- C18: for every 64-bit pointer value `p`, the halves
`low = (uint32_t)p` and `high = (uint32_t)(p >> 32)` passed to `makecontext`
recombine in `mainfunc` as `(uintptr_t)low | ((uintptr_t)high << 32)` to
exactly `p`. -/
theorem handle_split_round_trip (p : Nat) (hp : p < 2 ^ 64) :
    mainfunc_ptr (makecontext_low32 p) (makecontext_hi32 p) = p := by
  unfold mainfunc_ptr makecontext_low32 makecontext_hi32
  have hlo : p % 2 ^ 32 < 2 ^ 32 := Nat.mod_lt _ (by norm_num)
  have hhi : p / 2 ^ 32 < 2 ^ 32 := by
    apply Nat.div_lt_of_lt_mul
    calc p < 2 ^ 64 := hp
      _ = 2 ^ 32 * 2 ^ 32 := by norm_num
  rw [Nat.shiftRight_eq_div_pow, Nat.mod_eq_of_lt hhi,
    Nat.mod_eq_of_lt (lt_trans hhi (by norm_num)),
    Nat.mod_eq_of_lt (lt_trans hlo (by norm_num)), Nat.shiftLeft_eq]
  have hmul : p / 2 ^ 32 * 2 ^ 32 < 2 ^ 64 := by
    calc p / 2 ^ 32 * 2 ^ 32 ≤ p := Nat.div_mul_le_self _ _
      _ < 2 ^ 64 := hp
  rw [Nat.mod_eq_of_lt hmul, Nat.lor_comm, Nat.mul_comm,
    ← Nat.mul_add_lt_is_or hlo (p / 2 ^ 32)]
  exact Nat.div_add_mod p (2 ^ 32)

/-- Witness of C18: the pointer `0x00007ffc12345678` splits into
`0x12345678` and `0x00007ffc` and recombines to itself. -/
theorem handle_split_round_trip_witness :
    makecontext_low32 0x00007ffc12345678 = 0x12345678 ∧
    makecontext_hi32 0x00007ffc12345678 = 0x00007ffc ∧
    mainfunc_ptr (makecontext_low32 0x00007ffc12345678)
      (makecontext_hi32 0x00007ffc12345678) = 0x00007ffc12345678 :=
  ⟨by decide, by decide, handle_split_round_trip 0x00007ffc12345678 (by norm_num)⟩

/-! ## Isolation of a saved stack -/

/-- A run that never resumes the slot `x`, started in a state where `x`
holds a record and is not the running slot, leaves that record in place and
never makes `x` the running slot. -/
theorem exec_keeps_record (ops : List Op) :
    ∀ (S S2 : schedule) (x : Int) (CX : coroutine),
      0 ≤ x → x < S.cap → S.co x = some CX → S.running ≠ x →
      (∀ id : Int, Op.resume id ∈ ops → id ≠ x) →
      exec S ops = some S2 →
      S2.co x = some CX ∧ x < S2.cap ∧ S2.running ≠ x := by
  induction ops with
  | nil =>
    intro S S2 x CX _ hx hC hr _ hex
    simp only [exec, Option.some.injEq] at hex
    rw [← hex]; exact ⟨hC, hx, hr⟩
  | cons op ops ih =>
    intro S S2 x CX hx0 hx hC hr hops hex
    have hops1 : ∀ id : Int, Op.resume id ∈ ops → id ≠ x :=
      fun id hm => hops id (List.mem_cons_of_mem _ hm)
    cases op with
    | new func ud =>
      simp only [exec] at hex
      split at hex
      · cases hex
      · rename_i id S1 hn
        obtain ⟨_, hother, _, hrun, hcap, hfree⟩ := coroutine_new_slots S S1 func ud id hn
        have hne : x ≠ id := by
          rcases hfree with h | h
          · intro e; rw [e, h] at hC; cases hC
          · omega
        have hC1 : S1.co x = some CX := by
          rcases hother x hne with h | ⟨_, h⟩
          · rw [h]; exact hC
          · omega
        exact ih S1 S2 x CX hx0 (by rcases hcap with h | ⟨h, _⟩ <;> omega) hC1
          (by rw [hrun]; exact hr) hops1 hex
    | resume id =>
      simp only [exec] at hex
      split at hex
      · cases hex
      · rename_i S1 hres
        have hidx : id ≠ x := hops id (List.mem_cons_self _ _)
        obtain ⟨_, _, _, hcap, hcase⟩ := coroutine_resume_slots S S1 id hres
        rcases hcase with ⟨_, he⟩ | ⟨C0, _, _, hrun, hco⟩
        · rw [he] at hex
          exact ih S S2 x CX hx0 hx hC hr hops1 hex
        · exact ih S1 S2 x CX hx0 (by rw [hcap]; exact hx)
            (by rw [hco, Function.update_noteq (Ne.symm hidx)]; exact hC)
            (by rw [hrun]; exact hidx) hops1 hex
    | yield addrC n =>
      simp only [exec] at hex
      split at hex
      · cases hex
      · rename_i S1 hy
        obtain ⟨_, _, C0, C1, stk, _, _, _, hrun, hcap, _, hco⟩ :=
          coroutine_yield_slots S S1 addrC n hy
        exact ih S1 S2 x CX hx0 (by rw [hcap]; exact hx)
          (by rw [hco, Function.update_noteq (Ne.symm hr)]; exact hC)
          (by rw [hrun]; omega) hops1 hex
    | ret =>
      simp only [exec] at hex
      split at hex
      · split at hex
        · cases hex
        · rename_i S1 hm
          obtain ⟨_, hco, _, hrun, hcap, _⟩ := mainfunc_slots S S1 hm
          exact ih S1 S2 x CX hx0 (by rw [hcap]; exact hx)
            (by rw [hco, Function.update_noteq (Ne.symm hr)]; exact hC)
            (by rw [hrun]; omega) hops1 hex
      · cases hex
    | write stk =>
      simp only [exec] at hex
      exact ih { S with stack := stk } S2 x CX hx0 hx hC hr hops1 hex

/-- C19: let the running coroutine X of a reachable state yield with a
positive live length `n`, saving the bytes that the shared stack holds at
offsets `[STACK_SIZE - n, STACK_SIZE)` at that moment.  After any run of
events that does not resume X (creations, resumes, yields and returns of other
coroutines, arbitrary writes to the shared stack), X is still SUSPEND with
`size = n`, and a resume of X from the main context puts exactly the saved
bytes back at those offsets. -/
theorem saved_stack_isolated (S0 S1 S2 : schedule) (addrC n : Int) (ops : List Op)
    (hR : Reachable S0) (hn0 : 0 < n)
    (hy : coroutine_yield S0 addrC n = some S1)
    (hops : ∀ id : Int, Op.resume id ∈ ops → id ≠ S0.running)
    (hex : exec S1 ops = some S2) :
    coroutine_status S2 S0.running = some COROUTINE_SUSPEND ∧
    (∃ CX : coroutine, S2.co S0.running = some CX ∧ S1.co S0.running = some CX ∧
      CX.size = n) ∧
    (S2.running = -1 →
      ∃ S3 : schedule, coroutine_resume S2 S0.running = some S3 ∧
        S3.running = S0.running ∧
        ∀ a : Int, STACK_SIZE - n ≤ a → a < STACK_SIZE → S3.stack a = S1.stack a) := by
  obtain ⟨hr0, haddr, C, C1, stk, hC, hsave, _⟩ := coroutine_yield_slots S0 S1 addrC n hy
  obtain ⟨hn, _, _, _, _, _, _, hfresh, hkept⟩ := save_stack_fields _ _ _ _ _ hsave
  obtain ⟨T1, D1, hy1, hrun1, hcap1, _, hstk1, hco1, hst1, hsize1, _, _, _, hpriv1⟩ :=
    coroutine_yield_switch S0 C addrC n hr0 hC haddr hn
  rw [hy] at hy1
  simp only [Option.some.injEq] at hy1
  subst hy1
  have hlt : S0.running < S0.cap := by
    rcases hR.inv.2.2.2.2.1 with h | ⟨_, h, _⟩ <;> omega
  have hD1 : S1.co S0.running = some D1 := by rw [hco1, Function.update_same]
  obtain ⟨hco2, hx2, hr2⟩ := exec_keeps_record ops S1 S2 S0.running D1 hr0
    (by rw [hcap1]; exact hlt) hD1 (by rw [hrun1]; omega) hops hex
  -- the private stack is allocated
  have hstack : ∃ p, D1.stack = some p := by
    have hD1eq : some D1 = some { C1 with status := COROUTINE_SUSPEND } := by
      rw [← hD1]
      obtain ⟨_, _, C', C1', stk', hC', hsave', _, _, _, _, hco'⟩ :=
        coroutine_yield_slots S0 S1 addrC n hy
      rw [hC] at hC'
      simp only [Option.some.injEq] at hC'
      subst hC'
      rw [hsave] at hsave'
      simp only [Option.some.injEq, Prod.mk.injEq] at hsave'
      rw [hco', Function.update_same, hsave'.2]
    simp only [Option.some.injEq] at hD1eq
    have hne : C1.stack ≠ none := by
      by_cases hcap : C.cap < n
      · exact hfresh hcap
      · intro hnone
        have := (hR.recOK _ C hC).2.2.1 ((hkept hcap).mp hnone)
        omega
    rw [hD1eq]
    exact Option.ne_none_iff_exists'.mp hne
  obtain ⟨p, hp⟩ := hstack
  refine ⟨?_, ⟨D1, hco2, hD1, hsize1⟩, ?_⟩
  · rw [coroutine_status_some S2 _ D1 hr0 hx2 hco2, hst1]
  · intro hmain
    have hrange : ¬ ¬ (S0.running ≥ 0 ∧ S0.running < S2.cap) := not_not.mpr ⟨hr0, hx2⟩
    simp only [coroutine_resume, hmain, ne_eq, not_true_eq_false, if_false, hrange, hco2,
      hst1, hp]
    refine ⟨_, rfl, rfl, ?_⟩
    intro a ha0 ha1
    have hin : STACK_SIZE - n ≤ a ∧ a < STACK_SIZE - n + n := by omega
    show memcpy S2.stack (STACK_SIZE - D1.size) p 0 D1.size a = S1.stack a
    rw [hsize1, hstk1]
    simp only [memcpy, hin, and_self, if_true]
    rw [hpriv1 p hp (a - (STACK_SIZE - n) + 0) (by omega) (by omega)]
    congr 1
    ring

/-- Witness of C19: A yields with 64 live bytes over a stack holding
`a % 256`; B and a third coroutine then run and overwrite the shared stack;
the resume of A puts A's bytes back. -/
theorem saved_stack_isolated_witness :
    ∃ S1 S2 S3 : schedule,
      coroutine_yield isolation_start 1048545 64 = some S1 ∧
      exec S1 isolation_events = some S2 ∧
      S2.stack (STACK_SIZE - 1) = 9 ∧
      coroutine_status S2 0 = some COROUTINE_SUSPEND ∧
      coroutine_resume S2 0 = some S3 ∧
      ∀ a : Int, STACK_SIZE - 64 < a → a < STACK_SIZE → S3.stack a = (a % 256).toNat := by
  have hy : coroutine_yield isolation_start 1048545 64 =
      some ((coroutine_yield isolation_start 1048545 64).getD isolation_start) := rfl
  have hex : exec ((coroutine_yield isolation_start 1048545 64).getD isolation_start)
      isolation_events =
      some ((exec ((coroutine_yield isolation_start 1048545 64).getD isolation_start)
        isolation_events).getD isolation_start) := rfl
  obtain ⟨hst, _, hres⟩ := saved_stack_isolated isolation_start _ _ 1048545 64
    isolation_events (Reachable_run _ _) (by decide) hy
    (fun id hm => by
      have h0 : isolation_start.running = 0 := by decide
      rw [h0]
      simp only [isolation_events, List.mem_cons, List.mem_singleton, Op.resume.injEq,
        List.not_mem_nil, or_false, false_or, reduceCtorEq] at hm
      omega)
    hex
  obtain ⟨S3, hr3, _, hstk⟩ := hres (by decide)
  refine ⟨_, _, S3, hy, hex, by decide, hst, hr3, ?_⟩
  intro a ha0 ha1
  rw [hstk a (by omega) ha1]
  show Function.update (fun a : Int => (a % 256).toNat) (STACK_SIZE - 64) 0 a = (a % 256).toNat
  rw [Function.update_noteq (by omega)]

/-! ## Resuming from the main context -/

/-- C20: in every reachable state with `running == -1`, every non-`NULL` slot
below `cap` holds a coroutine whose status is READY or SUSPEND; hence a resume
of any in-range id returns, never reaching `default: assert(0)`. -/
theorem main_context_resume_safe (S : schedule) (hR : Reachable S)
    (hmain : S.running = -1) :
    (∀ (i : Int) (C : coroutine), 0 ≤ i → i < S.cap → S.co i = some C →
      C.status = COROUTINE_READY ∨ C.status = COROUTINE_SUSPEND) ∧
    (∀ id : Int, 0 ≤ id → id < S.cap → ∃ S1 : schedule, coroutine_resume S id = some S1) := by
  obtain ⟨_, _, _, hrun, _, hdead⟩ := hR.inv
  have hst : ∀ (i : Int) (C : coroutine), 0 ≤ i → i < S.cap → S.co i = some C →
      C.status = COROUTINE_READY ∨ C.status = COROUTINE_SUSPEND := by
    intro i C h0 h1 hC
    have h2 := hdead i C h0 h1 hC
    have h3 : C.status ≠ COROUTINE_RUNNING := by
      intro h
      have := (hrun i C h0 h1 hC).mp h
      omega
    cases hs : C.status with
    | COROUTINE_DEAD => exact absurd hs h2
    | COROUTINE_READY => exact Or.inl rfl
    | COROUTINE_RUNNING => exact absurd hs h3
    | COROUTINE_SUSPEND => exact Or.inr rfl
  refine ⟨hst, ?_⟩
  intro id h0 h1
  cases hC : S.co id with
  | none =>
    exact ⟨S, by simp [coroutine_resume, hmain, h0, h1, hC]⟩
  | some C =>
    obtain ⟨S1, h, _⟩ := coroutine_resume_switch S id C hmain h0 h1 hC (hst id C h0 h1 hC)
    exact ⟨S1, h⟩

/-- Witness of C20: with A suspended, B READY and a third coroutine dead,
nothing is running, slot 0 is SUSPEND, and a resume of slot 0 returns. -/
theorem main_context_resume_safe_witness :
    (run (fun _ => 0) [Op.new 0 0, Op.new 1 0, Op.new 2 0, Op.resume 0, Op.yield 1048545 64,
      Op.resume 2, Op.ret]).running = -1 ∧
    coroutine_status (run (fun _ => 0) [Op.new 0 0, Op.new 1 0, Op.new 2 0, Op.resume 0,
      Op.yield 1048545 64, Op.resume 2, Op.ret]) 0 = some COROUTINE_SUSPEND ∧
    ∃ S1 : schedule,
      coroutine_resume (run (fun _ => 0) [Op.new 0 0, Op.new 1 0, Op.new 2 0, Op.resume 0,
        Op.yield 1048545 64, Op.resume 2, Op.ret]) 0 = some S1 :=
  ⟨by decide, by decide,
   (main_context_resume_safe (run (fun _ => 0) [Op.new 0 0, Op.new 1 0, Op.new 2 0,
      Op.resume 0, Op.yield 1048545 64, Op.resume 2, Op.ret]) (Reachable_run _ _)
      (by decide)).2 0 (by decide) (by decide)⟩

end Coro
